import Mathlib

/-!
Verification of the groups_assigner core engine (src/main.py).

The engine assigns competitors to seats inside small groups while honoring
pinned positions and minimizing same-country collisions.  This development
gives a shallow embedding of the core functions:

* Python dicts become association lists (`List (K × V)`) with dict-faithful
  operations: lookup is by key, update replaces in place, fresh keys are
  appended at the end (insertion order), exactly as CPython dicts behave.
* The global `random` generator becomes an explicit stream of natural
  numbers (`List Nat`) threaded through the computation; `random.choice`
  picks index `n % len` from the next draw, `random.shuffle` is a
  Fisher-Yates permutation driven by the stream.  Universally quantifying
  over the stream covers every possible seeding of the PRNG.
* Wall-clock checks in the optimizer become an oracle `expired : Nat → Bool`
  giving the outcome of the time-budget test before each attempt.
* In-place mutation of the caller's `groups` dict by
  `systematic_country_assignment` is made explicit: the function returns the
  final groups state alongside the `Assignment`.
-/

namespace GroupsAssigner

open List

/-! ### Dict-as-association-list primitives -/

/-- Python dict lookup (`d[k]` / `d.get(k)`): first entry with the key. -/
def dlookup {K V : Type} [DecidableEq K] (k : K) : List (K × V) → Option V
  | [] => none
  | e :: rest => if e.1 = k then some e.2 else dlookup k rest

/-- Python `k in d`. -/
def dmem {K V : Type} [DecidableEq K] (k : K) (l : List (K × V)) : Bool :=
  (dlookup k l).isSome

/-- Python `d[k] = v`: update in place when the key exists, else append. -/
def dinsert {K V : Type} [DecidableEq K] (k : K) (v : V) : List (K × V) → List (K × V)
  | [] => [(k, v)]
  | e :: rest => if e.1 = k then (k, v) :: rest else e :: dinsert k v rest

/-- Python `defaultdict(list); d[k].append(v)`. -/
def dappend {K V : Type} [DecidableEq K] (k : K) (v : V) : List (K × List V) → List (K × List V)
  | [] => [(k, [v])]
  | e :: rest => if e.1 = k then (e.1, e.2 ++ [v]) :: rest else e :: dappend k v rest

/-- Python `defaultdict(int); d[k] += n` (also `Counter` updates). -/
def dbump {K : Type} [DecidableEq K] (k : K) (n : Nat) : List (K × Nat) → List (K × Nat)
  | [] => [(k, n)]
  | e :: rest => if e.1 = k then (e.1, e.2 + n) :: rest else e :: dbump k n rest

/-- Keys of a dict, in insertion order. -/
def dkeys {K V : Type} (l : List (K × V)) : List K := l.map (·.1)

/-- Pointwise effect of overwriting the keys listed in `pairs`: an entry
whose key is written receives its new value, every other entry is kept.
A sequence of in-place `dinsert`s at existing keys equals a `map` of this
function (see `foldl_dinsert_eq_map`). -/
def rewriteFn {K V : Type} [DecidableEq K] (pairs : List (K × V)) (e : K × V) : K × V :=
  match dlookup e.1 pairs with
  | some v => (e.1, v)
  | none => e

/-- Duplicate-free key list in first-occurrence order (the key order produced
by building a dict by repeated insertion). -/
def firstOccur {K : Type} [DecidableEq K] (l : List K) : List K :=
  l.foldl (fun acc k => if k ∈ acc then acc else acc ++ [k]) []

/-! ### Data model (classes `Competitor`, `Group`, `Assignment`) -/

/-- `class Competitor` of src/main.py. -/
structure Competitor where
  id : String
  name : String
  country : String
  seed_id : Option Int
deriving Repr, DecidableEq

/-- Seat labels of a group: `["a","b","c","d"][:capacity]`. -/
def positionsFor (capacity : Nat) : List String :=
  (["a", "b", "c", "d"]).take capacity

/-- `class Group` of src/main.py.  `assigned_positions` maps seat → competitor
id and is the mutable per-pass state. -/
structure Group where
  id : String
  capacity : Nat
  label : Option String
  positions : List String
  assigned_positions : List (String × String)
deriving Repr, DecidableEq

/-- The `Group.__init__` constructor: fresh empty occupancy, positions derived
from capacity.  (Group ids are string-normalized before they reach the engine,
so `str(id)` is the identity here.) -/
def Group.make (id : String) (capacity : Nat) (label : Option String) : Group :=
  { id := id, capacity := capacity, label := label,
    positions := positionsFor capacity, assigned_positions := [] }

/-- `class Assignment` of src/main.py after one placement pass. -/
structure Assignment where
  assignments : List ((String × String) × String)
  collision_count : Nat
  per_country_collisions : List (String × Nat)
  random_seed : Option Int
deriving Repr, DecidableEq

/-- Country of a competitor id (`competitors[comp_id].country`). -/
def countryOf (competitors : List (String × Competitor)) (cid : String) : String :=
  match dlookup cid competitors with
  | some c => c.country
  | none => ""

/-! ### `validate_inputs` (src/main.py lines 46-87) -/

/-- The per-pin checks of `validate_inputs` (existence of the competitor, of
the group, and validity of the seat), short-circuiting on the first failure. -/
def checkPins (competitors : List (String × Competitor)) (groups : List (String × Group)) :
    List (String × (String × String)) → Option String
  | [] => none
  | e :: rest =>
    if ¬ (dmem e.1 competitors) then
      some ("Fixed position: competitor '" ++ e.1 ++ "' does not exist.")
    else
      match dlookup e.2.1 groups with
      | none =>
        some ("Fixed position: competitor '" ++ e.1 ++ "' refers to non-existent group "
          ++ e.2.1 ++ ".")
      | some g =>
        if e.2.2 ∈ g.positions then checkPins competitors groups rest
        else
          some ("Invalid position letter '" ++ e.2.2 ++ "' for group " ++ e.2.1
            ++ " with capacity " ++ toString g.capacity ++ ".")

/-- The `position_assignments` buckets of `validate_inputs`: pins grouped by
their `(group_id, position)` target. -/
def positionBuckets (fixed_positions : List (String × (String × String))) :
    List ((String × String) × List String) :=
  fixed_positions.foldl (fun acc e => dappend e.2 e.1 acc) []

/-- `validate_inputs(competitors, groups, fixed_positions)`. -/
def validate_inputs (competitors : List (String × Competitor))
    (groups : List (String × Group)) (fixed_positions : List (String × (String × String))) :
    Bool × String :=
  let total_capacity := (groups.map (fun g => g.2.capacity)).sum
  if competitors.length ≠ total_capacity then
    (false, "Total competitors (" ++ toString competitors.length
      ++ ") does not match total group capacity (" ++ toString total_capacity ++ ").")
  else
    match checkPins competitors groups fixed_positions with
    | some msg => (false, msg)
    | none =>
      match (positionBuckets fixed_positions).find? (fun b => b.2.length > 1) with
      | some b =>
        (false, "Duplicate fixed position: group " ++ b.1.1 ++ " position " ++ b.1.2
          ++ " assigned to multiple competitors: " ++ String.intercalate ", " b.2 ++ ".")
      | none => (true, "")

/-- Specification-side validity predicate, written from the spec's words
(spec §4.1 / §8): counts match, every pin references an existing competitor,
an existing group and a valid seat, and no two pins target the same seat. -/
def ValidSpec (competitors : List (String × Competitor)) (groups : List (String × Group))
    (fixed_positions : List (String × (String × String))) : Prop :=
  competitors.length = (groups.map (fun g => g.2.capacity)).sum ∧
  (∀ e ∈ fixed_positions, dmem e.1 competitors = true ∧
    ∃ g, dlookup e.2.1 groups = some g ∧ e.2.2 ∈ g.positions) ∧
  (fixed_positions.map (·.2)).Nodup

/-! ### `calculate_collisions` (src/main.py lines 90-112) -/

/-- Grouping of the assignment's seat → competitor pairs by group id
(`group_assignments`). -/
def group_assignments (assignment : List ((String × String) × String)) :
    List (String × List String) :=
  assignment.foldl (fun acc e => dappend e.1.1 e.2 acc) []

/-- `Counter(competitors[comp_id].country for comp_id in comp_ids)`. -/
def country_counts (competitors : List (String × Competitor)) (comp_ids : List String) :
    List (String × Nat) :=
  comp_ids.foldl (fun acc cid => dbump (countryOf competitors cid) 1 acc) []

/-- Number of same-country pairs contributed by `n` competitors: `n*(n-1)//2`. -/
def pairsOf (n : Nat) : Nat := n * (n - 1) / 2

/-- One step of the inner loop of `calculate_collisions` (lines 105-110): a
country appearing `n > 1` times in a group adds `n*(n-1)//2` pairs to the
running total and to that country's subtotal. -/
def collisionStep (acc : Nat × List (String × Nat)) (cn : String × Nat) :
    Nat × List (String × Nat) :=
  if cn.2 > 1 then (acc.1 + pairsOf cn.2, dbump cn.1 (pairsOf cn.2) acc.2) else acc

/-- Processing of one group of the assignment (lines 100-110). -/
def collisionGroupStep (competitors : List (String × Competitor))
    (acc : Nat × List (String × Nat)) (ge : String × List String) :
    Nat × List (String × Nat) :=
  (country_counts competitors ge.2).foldl collisionStep acc

/-- `calculate_collisions(assignment, competitors, groups)`.  The `groups`
parameter is accepted but never read, exactly as in the source. -/
def calculate_collisions (assignment : List ((String × String) × String))
    (competitors : List (String × Competitor)) (groups : List (String × Group)) :
    Nat × List (String × Nat) :=
  let _ := groups
  (group_assignments assignment).foldl (collisionGroupStep competitors) (0, [])

/-! ### Randomness model

The global `random` generator is abstracted as a stream of draws
(`List Nat`); quantifying over all streams covers all seeds. -/

/-- Take the next raw draw from the stream (0 when exhausted). -/
def draw : List Nat → Nat × List Nat
  | [] => (0, [])
  | n :: rest => (n, rest)

/-- `random.choice(l)` for a non-empty list `l` presented as `d :: _`:
one draw selects an index modulo the length. -/
def rchoice {α : Type} (l : List α) (d : α) (rng : List Nat) : α × List Nat :=
  let dr := draw rng
  (l.getD (dr.1 % l.length) d, dr.2)

/-- Fisher-Yates core of `random.shuffle`, with explicit fuel (the list
length) so that the recursion is structural. -/
def rshuffleAux {α : Type} : Nat → List α → List Nat → List α × List Nat
  | 0, l, rng => (l, rng)
  | _ + 1, [], rng => ([], rng)
  | fuel + 1, x :: xs, rng =>
    let l := x :: xs
    let (n, rng1) := draw rng
    let i := n % l.length
    let y := l.getD i x
    let (rest, rng2) := rshuffleAux fuel (l.eraseIdx i) rng1
    (y :: rest, rng2)

/-- `random.shuffle(l)`: a stream-driven uniform permutation of `l`. -/
def rshuffle {α : Type} (l : List α) (rng : List Nat) : List α × List Nat :=
  rshuffleAux l.length l rng

/-! ### `systematic_country_assignment` (src/main.py lines 115-250) -/

/-- Mutable state of one placement pass: the assignment mapping being built,
the (mutated) groups dict, the `country_group_counts` table and the random
stream. -/
structure PState where
  assignment : List ((String × String) × String)
  groups : List (String × Group)
  counts : String → String → Nat
  rng : List Nat

/-- Open seats of a group: `[pos for pos in group.positions if pos not in
group.assigned_positions]`. -/
def availablePositions (g : Group) : List String :=
  g.positions.filter (fun p => ¬ (dmem p g.assigned_positions))

/-- `groups[gid].assigned_positions[pos] = comp`: in-place mutation of one
group of the dict. -/
def assignSeat (gid pos comp : String) (groups : List (String × Group)) :
    List (String × Group) :=
  groups.map (fun gg =>
    if gg.1 = gid then
      (gg.1, { gg.2 with assigned_positions := dinsert pos comp gg.2.assigned_positions })
    else gg)

/-- One step of the `best_groups` scan (lines 173-185): a group with at
least one open seat resets the running minimum when strictly below it,
joins the candidate list when equal, and is skipped otherwise; `min_count`
starts at infinity, modelled by `none`. -/
def bestGroupStep (counts : String → String → Nat) (country : String)
    (acc : Option Nat × List String) (gg : String × Group) : Option Nat × List String :=
  if (availablePositions gg.2).length > 0 then
    let c := counts country gg.1
    match acc.1 with
    | none => (some c, [gg.1])
    | some m =>
      if c < m then (some c, [gg.1])
      else if c = m then (some m, acc.2 ++ [gg.1])
      else acc
  else acc

/-- The `best_groups` scan (lines 169-185): among groups with at least one
open seat, those whose running same-country count is minimal, collected in
iteration order. -/
def findBestGroups (counts : String → String → Nat) (country : String)
    (groups : List (String × Group)) : List String :=
  (groups.foldl (bestGroupStep counts country) (none, [])).2

/-- Placement of a single competitor (lines 168-208): pick a random
minimum-count open group, then a random open seat inside it; skip silently
when no group has an open seat. -/
def placeOne (country comp : String) (st : PState) : PState :=
  match findBestGroups st.counts country st.groups with
  | [] => st
  | b :: bs =>
    let ch := rchoice (b :: bs) b st.rng
    let gid := ch.1
    let avail := match dlookup gid st.groups with
      | some g => availablePositions g
      | none => []
    match avail with
    | [] => { st with rng := ch.2 }
    | p :: ps =>
      let ch2 := rchoice (p :: ps) p ch.2
      let pos := ch2.1
      { assignment := dinsert (gid, pos) comp st.assignment
        groups := assignSeat gid pos comp st.groups
        counts := fun c g =>
          if c = country ∧ g = gid then st.counts c g + 1 else st.counts c g
        rng := ch2.2 }

/-- Placement of one country's competitors (lines 163-208): shuffle the
country's list, then place each competitor in turn. -/
def placeCountry (st : PState) (ce : String × List String) : PState :=
  let sh := rshuffle ce.2 st.rng
  sh.1.foldl (fun s comp => placeOne ce.1 comp s) { st with rng := sh.2 }

/-- `country_groups`: the remaining competitors partitioned by country, in
first-encounter order (`defaultdict(list)` insertion semantics). -/
def buildCountryGroups (competitors : List (String × Competitor))
    (remaining : List String) : List (String × List String) :=
  remaining.foldl (fun acc cname => dappend (countryOf competitors cname) cname acc) []

/-- `sorted(country_groups.items(), key=lambda x: len(x[1]), reverse=True)`:
Python's stable descending sort by country population. -/
def sortCountries (cgs : List (String × List String)) : List (String × List String) :=
  cgs.insertionSort (fun a b => b.2.length ≤ a.2.length)

/-- Commit all fixed positions (lines 130-135): record each pin in the
assignment and mark the pinned seat occupied in its group. -/
def placeFixed (fixed_positions : List (String × (String × String)))
    (assignment : List ((String × String) × String)) (groups : List (String × Group)) :
    List ((String × String) × String) × List (String × Group) :=
  fixed_positions.foldl
    (fun acc e => (dinsert (e.2.1, e.2.2) e.1 acc.1, assignSeat e.2.1 e.2.2 e.1 acc.2))
    (assignment, groups)

/-- `country_group_counts` initialized from the fixed positions
(lines 153-160). -/
def initCounts (competitors : List (String × Competitor))
    (fixed_positions : List (String × (String × String))) : String → String → Nat :=
  fixed_positions.foldl
    (fun cnt e =>
      let country := countryOf competitors e.1
      fun c g => if c = country ∧ g = e.2.1 then cnt c g + 1 else cnt c g)
    (fun _ _ => 0)

/-- The set of pinned `(group_id, seat)` targets (line 212). -/
def fixedPositionSet (fixed_positions : List (String × (String × String))) :
    List (String × String) :=
  fixed_positions.map (·.2)

/-- The post-placement local reshuffle for one group (lines 214-243): shuffle
the competitors sitting at the group's non-fixed seats and write them back
to those seats, provided every non-fixed seat currently holds a competitor. -/
def shuffleGroupSeats (fixedSet : List (String × String))
    (st : List ((String × String) × String) × List Nat) (gg : String × Group) :
    List ((String × String) × String) × List Nat :=
  let nonFixed := (gg.2.positions.map (fun p => (gg.1, p))).filter
    (fun q => ¬ (q ∈ fixedSet))
  if nonFixed.isEmpty then st
  else
    let compsAt := nonFixed.filterMap (fun q => dlookup q st.1)
    if compsAt.length = nonFixed.length then
      let sh := rshuffle compsAt st.2
      ((nonFixed.zip sh.1).foldl (fun a qc => dinsert qc.1 qc.2 a) st.1, sh.2)
    else st

/-- The full reshuffle pass over all groups (lines 210-243). -/
def shuffleSeats (fixed_positions : List (String × (String × String)))
    (groups : List (String × Group)) (assignment : List ((String × String) × String))
    (rng : List Nat) : List ((String × String) × String) × List Nat :=
  groups.foldl (shuffleGroupSeats (fixedPositionSet fixed_positions)) (assignment, rng)

/-- `systematic_country_assignment(competitors, groups, fixed_positions,
random_seed)`.  Returns the `Assignment` together with the final state of the
(caller-supplied, mutated in place) `groups` dict. -/
def systematic_country_assignment (competitors : List (String × Competitor))
    (groups : List (String × Group)) (fixed_positions : List (String × (String × String)))
    (random_seed : Option Int) (rng : List Nat) : Assignment × List (String × Group) :=
  let pf := placeFixed fixed_positions [] groups
  let remaining := (dkeys competitors).filter (fun n => ¬ (dmem n fixed_positions))
  let sortedCountries := sortCountries (buildCountryGroups competitors remaining)
  let st := sortedCountries.foldl placeCountry
    { assignment := pf.1, groups := pf.2,
      counts := initCounts competitors fixed_positions, rng := rng }
  let finalAssignment := (shuffleSeats fixed_positions st.groups st.assignment st.rng).1
  let cc := calculate_collisions finalAssignment competitors st.groups
  ({ assignments := finalAssignment, collision_count := cc.1,
     per_country_collisions := cc.2, random_seed := random_seed }, st.groups)

/-- The competitors left to place after the pins are committed (line 139). -/
def remainingOf (competitors : List (String × Competitor))
    (fixed_positions : List (String × (String × String))) : List String :=
  (dkeys competitors).filter (fun n => ¬ (dmem n fixed_positions))

/-- The sorted country partition fed to the placement loop (lines 143-150). -/
def sysCountries (competitors : List (String × Competitor))
    (fixed_positions : List (String × (String × String))) : List (String × List String) :=
  sortCountries (buildCountryGroups competitors (remainingOf competitors fixed_positions))

/-- The engine state right after the pins are committed. -/
def sysInit (competitors : List (String × Competitor)) (groups : List (String × Group))
    (fixed_positions : List (String × (String × String))) (rng : List Nat) : PState :=
  { assignment := (placeFixed fixed_positions [] groups).1,
    groups := (placeFixed fixed_positions [] groups).2,
    counts := initCounts competitors fixed_positions, rng := rng }

/-- The engine state after the country placement loop, before the local
reshuffle. -/
def sysState (competitors : List (String × Competitor)) (groups : List (String × Group))
    (fixed_positions : List (String × (String × String))) (rng : List Nat) : PState :=
  (sysCountries competitors fixed_positions).foldl placeCountry
    (sysInit competitors groups fixed_positions rng)

/-! ### `optimized_systematic_assignment` (src/main.py lines 253-297) and
`improved_assign_competitors` (lines 300-323) -/

/-- `fresh_groups`: per-attempt value copies of the groups
(lines 277-280), rebuilt through the `Group` constructor. -/
def freshGroups (groups : List (String × Group)) : List (String × Group) :=
  groups.map (fun gg => (gg.1, Group.make gg.2.id gg.2.capacity gg.2.label))

/-- Result of attempt `i` of the optimizer: one systematic pass over fresh
group copies with derived seed `random_seed + i` and that attempt's slice of
the random stream. -/
def optAttempt (competitors : List (String × Competitor)) (groups : List (String × Group))
    (fixed_positions : List (String × (String × String))) (random_seed : Option Int)
    (streams : Nat → List Nat) (i : Nat) : Assignment :=
  (systematic_country_assignment competitors (freshGroups groups) fixed_positions
    (random_seed.map (fun s => s + (i : Int))) (streams i)).1

/-- `current.collision_count < best_collision_count`, where an absent best
stands for `float("inf")`. -/
def betterThan (cc : Nat) : Option Assignment → Bool
  | none => true
  | some b => cc < b.collision_count

/-- The restart loop of `optimized_systematic_assignment`: before each
attempt the expired-budget test may abort; a strictly better attempt becomes
the new best; a zero-collision attempt stops the search. -/
def optLoop (competitors : List (String × Competitor)) (groups : List (String × Group))
    (fixed_positions : List (String × (String × String))) (random_seed : Option Int)
    (streams : Nat → List Nat) (expired : Nat → Bool) :
    Nat → Nat → Option Assignment → Option Assignment
  | 0, _, best => best
  | fuel + 1, attempt, best =>
    if expired attempt then best
    else
      let cur := optAttempt competitors groups fixed_positions random_seed streams attempt
      if betterThan cur.collision_count best then
        if cur.collision_count = 0 then some cur
        else optLoop competitors groups fixed_positions random_seed streams expired
          fuel (attempt + 1) (some cur)
      else optLoop competitors groups fixed_positions random_seed streams expired
        fuel (attempt + 1) best

/-- Ghost companion of `optLoop`: the list of attempt indices the loop
actually ran (the attempts "tried"). -/
def optTried (competitors : List (String × Competitor)) (groups : List (String × Group))
    (fixed_positions : List (String × (String × String))) (random_seed : Option Int)
    (streams : Nat → List Nat) (expired : Nat → Bool) :
    Nat → Nat → Option Assignment → List Nat
  | 0, _, _ => []
  | fuel + 1, attempt, best =>
    if expired attempt then []
    else
      let cur := optAttempt competitors groups fixed_positions random_seed streams attempt
      attempt ::
        (if betterThan cur.collision_count best then
          if cur.collision_count = 0 then []
          else optTried competitors groups fixed_positions random_seed streams expired
            fuel (attempt + 1) (some cur)
        else optTried competitors groups fixed_positions random_seed streams expired
          fuel (attempt + 1) best)

/-- `optimized_systematic_assignment`: up to 100 attempts; returns `none`
(Python `None`) when no attempt ever completed. -/
def optimized_systematic_assignment (competitors : List (String × Competitor))
    (groups : List (String × Group)) (fixed_positions : List (String × (String × String)))
    (random_seed : Option Int) (streams : Nat → List Nat) (expired : Nat → Bool) :
    Option Assignment :=
  optLoop competitors groups fixed_positions random_seed streams expired 100 0 none

/-- `improved_assign_competitors`: single pass when minimization is off
(running directly on the caller's groups, which are mutated), restart
optimization otherwise.  The second component is the caller's groups dict
after the call. -/
def improved_assign_competitors (competitors : List (String × Competitor))
    (groups : List (String × Group)) (fixed_positions : List (String × (String × String)))
    (random_seed : Option Int) (minimization : Bool) (streams : Nat → List Nat)
    (expired : Nat → Bool) : Option Assignment × List (String × Group) :=
  if minimization = false then
    let (a, groups') := systematic_country_assignment competitors groups fixed_positions
      random_seed (streams 0)
    (some a, groups')
  else
    (optimized_systematic_assignment competitors groups fixed_positions random_seed
      streams expired, groups)

/-! ### Derived definitions used by the specification statements -/

/-- Generic bucket-building fold (`defaultdict(list)` accumulation). -/
def dgroupBy {K V : Type} [DecidableEq K] (l : List (K × V)) : List (K × List V) :=
  l.foldl (fun acc e => dappend e.1 e.2 acc) []

/-- Generic counting fold (`Counter`). -/
def dcount {K : Type} [DecidableEq K] (l : List K) : List (K × Nat) :=
  l.foldl (fun acc k => dbump k 1 acc) []

/-- Sum of the values of a `country -> count` dict. -/
def sumVals (m : List (String × Nat)) : Nat := (m.map (·.2)).sum

/-- Value stored for a key, with the `defaultdict(int)` default 0. -/
def valueOf {K : Type} [DecidableEq K] (k : K) (m : List (K × Nat)) : Nat :=
  (dlookup k m).getD 0

/-- Group ids present in an assignment mapping, in first-occurrence order. -/
def gidsOf (A : List ((String × String) × String)) : List String :=
  firstOccur (A.map (·.1.1))

/-- Competitors an assignment mapping places in a given group, in insertion
order. -/
def groupMembers (gid : String) (A : List ((String × String) × String)) : List String :=
  (A.filter (fun e => e.1.1 = gid)).map (·.2)

/-- Per-group contribution to the collision total. -/
def bucketScore (competitors : List (String × Competitor)) (comp_ids : List String) : Nat :=
  ((country_counts competitors comp_ids).map
    (fun cn => if cn.2 > 1 then pairsOf cn.2 else 0)).sum

/-- Per-group contribution to one country's collision subtotal. -/
def bucketScoreFor (c : String) (competitors : List (String × Competitor))
    (comp_ids : List String) : Nat :=
  ((country_counts competitors comp_ids).map
    (fun cn => if cn.1 = c ∧ cn.2 > 1 then pairsOf cn.2 else 0)).sum

/-- Specification-side per-country collision value, written from the spec's
words: the sum over groups of `C(n, 2)` where `n` is that country's
in-group count. -/
def specPerCountry (competitors : List (String × Competitor))
    (A : List ((String × String) × String)) (country : String) : Nat :=
  ((gidsOf A).map (fun gid =>
    pairsOf (((groupMembers gid A).map (countryOf competitors)).count country))).sum


/-! ### Invariants of the placement pass -/

/-- Structural agreement between a groups state and the initial groups:
placement mutates only each group's `assigned_positions`, never the key
set or the seat-label lists. -/
def GroupsShape (groups0 G : List (String × Group)) : Prop :=
  G.map (fun gg => (gg.1, gg.2.positions)) = groups0.map (fun gg => (gg.1, gg.2.positions))

/-- The assignment mapping and the per-group occupancy record exactly the
same information: looking up a seat in the assignment equals looking up
its position inside its group. -/
def Sync (A : List ((String × String) × String)) (G : List (String × Group)) : Prop :=
  ∀ gid pos, dlookup (gid, pos) A =
    (dlookup gid G).bind (fun g => dlookup pos g.assigned_positions)

/-- Occupancy well-formedness: every group's occupancy dict has unique
seat keys, all of which are seats of the group. -/
def GroupsOcc (G : List (String × Group)) : Prop :=
  ∀ gg ∈ G, ((gg.2.assigned_positions.map (·.1)).Nodup) ∧
    ∀ p ∈ gg.2.assigned_positions.map (·.1), p ∈ gg.2.positions

/-- Number of occupied seats over all groups. -/
def occCount (G : List (String × Group)) : Nat :=
  (G.map (fun gg => gg.2.assigned_positions.length)).sum

/-- Number of open seats over all groups. -/
def openCount (G : List (String × Group)) : Nat :=
  (G.map (fun gg => (availablePositions gg.2).length)).sum

/-- Total number of seats over all groups. -/
def totalPos (G : List (String × Group)) : Nat :=
  (G.map (fun gg => gg.2.positions.length)).sum

/-- The full invariant carried through the placement pass. -/
def PlacementInv (groups0 : List (String × Group))
    (A : List ((String × String) × String)) (G : List (String × Group)) : Prop :=
  GroupsShape groups0 G ∧ Sync A G ∧ GroupsOcc G ∧
  (A.map (·.1)).Nodup ∧ A.length = occCount G

/-- Well-formed engine inputs: dict keys are unique (a Python dict
invariant) and every group is as built by the `Group` constructor — fresh
empty occupancy, seat labels derived from a capacity of 3 or 4 (spec §3
data model). -/
def WellFormedInputs (competitors : List (String × Competitor))
    (groups : List (String × Group))
    (fixed_positions : List (String × (String × String))) : Prop :=
  (competitors.map (·.1)).Nodup ∧ (groups.map (·.1)).Nodup ∧
  (fixed_positions.map (·.1)).Nodup ∧
  ∀ gg ∈ groups, gg.2.assigned_positions = [] ∧
    gg.2.positions = positionsFor gg.2.capacity ∧
    (gg.2.capacity = 3 ∨ gg.2.capacity = 4)

/-! ### Concrete inputs used by witnesses and counterexamples -/

/-- Three competitors, two sharing a country. -/
def exCompetitors : List (String × Competitor) :=
  [("A", { id := "A", name := "A", country := "JPN", seed_id := none }),
   ("B", { id := "B", name := "B", country := "USA", seed_id := none }),
   ("C", { id := "C", name := "C", country := "JPN", seed_id := none })]

/-- The same competitors with different display names but identical
countries. -/
def exCompetitorsAlt : List (String × Competitor) :=
  [("A", { id := "A", name := "Alice", country := "JPN", seed_id := none }),
   ("B", { id := "B", name := "Bob", country := "USA", seed_id := none }),
   ("C", { id := "C", name := "Carol", country := "JPN", seed_id := none })]

/-- Three competitors from three distinct countries. -/
def exCompetitorsDistinct : List (String × Competitor) :=
  [("A", { id := "A", name := "A", country := "JPN", seed_id := none }),
   ("B", { id := "B", name := "B", country := "USA", seed_id := none }),
   ("C", { id := "C", name := "C", country := "FRA", seed_id := none })]

/-- One group of capacity 3. -/
def exGroups : List (String × Group) := [("1", Group.make "1" 3 none)]

/-- Two groups of capacity 3. -/
def exGroupsTwo : List (String × Group) :=
  [("1", Group.make "1" 3 none), ("2", Group.make "2" 3 none)]

/-- A complete assignment of the three competitors to the single group. -/
def exAssignment : List ((String × String) × String) :=
  [(("1", "a"), "A"), (("1", "b"), "B"), (("1", "c"), "C")]

/-- Four competitors: three to be pinned, one extra. -/
def exCompetitorsFour : List (String × Competitor) :=
  [("P1", { id := "P1", name := "P1", country := "AAA", seed_id := none }),
   ("P2", { id := "P2", name := "P2", country := "BBB", seed_id := none }),
   ("P3", { id := "P3", name := "P3", country := "CCC", seed_id := none }),
   ("X", { id := "X", name := "X", country := "DDD", seed_id := none })]

/-- Pins filling every seat of group "1". -/
def exPinsFull : List (String × (String × String)) :=
  [("P1", ("1", "a")), ("P2", ("1", "b")), ("P3", ("1", "c"))]

/-- Six competitors from two countries of three. -/
def exCompetitorsSix : List (String × Competitor) :=
  [("A", { id := "A", name := "A", country := "JPN", seed_id := none }),
   ("B", { id := "B", name := "B", country := "JPN", seed_id := none }),
   ("C", { id := "C", name := "C", country := "JPN", seed_id := none }),
   ("D", { id := "D", name := "D", country := "USA", seed_id := none }),
   ("E", { id := "E", name := "E", country := "USA", seed_id := none }),
   ("F", { id := "F", name := "F", country := "USA", seed_id := none })]

/-- A single pin: competitor "A" at group "1", seat "a". -/
def exPinOne : List (String × (String × String)) := [("A", ("1", "a"))]

/-- A fully occupied group of capacity 3. -/
def exFullGroup : Group :=
  { id := "1", capacity := 3, label := none, positions := ["a", "b", "c"],
    assigned_positions := [("a", "P1"), ("b", "P2"), ("c", "P3")] }

/-- A placement state in which every seat of every group is occupied. -/
def exFullState : PState :=
  { assignment := [(("1", "a"), "P1"), (("1", "b"), "P2"), (("1", "c"), "P3")],
    groups := [("1", exFullGroup)],
    counts := fun _ _ => 0,
    rng := [] }

/-! ### Basic lemmas about the dict primitives -/

theorem dlookup_eq_none {K V : Type} [DecidableEq K] (k : K) (l : List (K × V)) :
    dlookup k l = none ↔ k ∉ l.map (·.1) := by
  induction l with
  | nil => simp [dlookup]
  | cons e rest ih =>
    by_cases h : e.1 = k
    · subst h; simp [dlookup]
    · simp only [dlookup, if_neg h, List.map_cons, List.mem_cons, ih]
      constructor
      · rintro hn (hin | hin)
        · exact h hin.symm
        · exact hn hin
      · intro hn hin; exact hn (Or.inr hin)

theorem dlookup_isSome {K V : Type} [DecidableEq K] (k : K) (l : List (K × V)) :
    (dlookup k l).isSome = true ↔ k ∈ l.map (·.1) := by
  rw [Option.isSome_iff_ne_none, ne_eq, dlookup_eq_none, not_not]

theorem dlookup_dinsert_self {K V : Type} [DecidableEq K] (k : K) (v : V) (l : List (K × V)) :
    dlookup k (dinsert k v l) = some v := by
  induction l with
  | nil => simp [dinsert, dlookup]
  | cons e rest ih =>
    by_cases h : e.1 = k
    · simp [dinsert, h, dlookup]
    · simp [dinsert, h, dlookup, ih]

theorem dlookup_dinsert_of_ne {K V : Type} [DecidableEq K] {k' k : K} (v : V)
    (l : List (K × V)) (h : k' ≠ k) : dlookup k' (dinsert k v l) = dlookup k' l := by
  induction l with
  | nil => simp [dinsert, dlookup, Ne.symm h]
  | cons e rest ih =>
    by_cases he : e.1 = k
    · subst he
      simp [dinsert, dlookup, Ne.symm h]
    · simp [dinsert, he, dlookup, ih]

theorem dinsert_of_fresh {K V : Type} [DecidableEq K] {k : K} (v : V) {l : List (K × V)}
    (h : dlookup k l = none) : dinsert k v l = l ++ [(k, v)] := by
  induction l with
  | nil => rfl
  | cons e rest ih =>
    rw [dlookup] at h
    by_cases he : e.1 = k
    · simp [he] at h
    · rw [if_neg he] at h
      simp [dinsert, he, ih h]

theorem dkeys_dinsert_of_mem {K V : Type} [DecidableEq K] {k : K} (v : V)
    {l : List (K × V)} (h : k ∈ l.map (·.1)) :
    (dinsert k v l).map (·.1) = l.map (·.1) := by
  induction l with
  | nil => cases h
  | cons e rest ih =>
    by_cases he : e.1 = k
    · simp [dinsert, he]
    · rcases List.mem_cons.mp h with h1 | h1
      · exact absurd h1.symm he
      · simp [dinsert, he, ih h1]

theorem dinsert_eq_map {K V : Type} [DecidableEq K] {k : K} (v : V) {l : List (K × V)}
    (hnd : (l.map (·.1)).Nodup) (h : k ∈ l.map (·.1)) :
    dinsert k v l = l.map (fun e => if e.1 = k then (k, v) else e) := by
  induction l with
  | nil => cases h
  | cons e rest ih =>
    simp only [List.map_cons, List.nodup_cons] at hnd
    by_cases he : e.1 = k
    · subst he
      have : ∀ x ∈ rest, (if x.1 = e.1 then (e.1, v) else x) = x := by
        intro x hx
        rw [if_neg]
        intro hx1
        exact hnd.1 (hx1 ▸ List.mem_map_of_mem (·.1) hx)
      simp [dinsert, List.map_congr_left this]
    · rcases List.mem_cons.mp h with h1 | h1
      · exact absurd h1.symm he
      · simp [dinsert, he, ih hnd.2 h1]

/-! ### Lemmas about `firstOccur` -/

theorem mem_firstOccur_foldl {K : Type} [DecidableEq K] (l acc : List K) (x : K) :
    (x ∈ l.foldl (fun a k => if k ∈ a then a else a ++ [k]) acc) ↔ x ∈ acc ∨ x ∈ l := by
  induction l generalizing acc with
  | nil => simp
  | cons k l ih =>
    simp only [List.foldl_cons]
    rw [ih]
    by_cases h : k ∈ acc
    · rw [if_pos h]
      constructor
      · rintro (hc | hc)
        · exact Or.inl hc
        · exact Or.inr (List.mem_cons_of_mem _ hc)
      · rintro (hc | hc)
        · exact Or.inl hc
        · rcases List.mem_cons.mp hc with rfl | hc
          · exact Or.inl h
          · exact Or.inr hc
    · rw [if_neg h]
      simp [List.mem_append, List.mem_cons, or_assoc]

theorem mem_firstOccur {K : Type} [DecidableEq K] (l : List K) (x : K) :
    x ∈ firstOccur l ↔ x ∈ l := by
  rw [firstOccur, mem_firstOccur_foldl]
  simp

theorem nodup_firstOccur_foldl {K : Type} [DecidableEq K] (l : List K) (acc : List K)
    (h : acc.Nodup) : (l.foldl (fun a k => if k ∈ a then a else a ++ [k]) acc).Nodup := by
  induction l generalizing acc with
  | nil => exact h
  | cons k l ih =>
    simp only [List.foldl_cons]
    by_cases hk : k ∈ acc
    · rw [if_pos hk]; exact ih _ h
    · rw [if_neg hk]
      refine ih _ ?_
      simp [List.nodup_append, h, hk]

theorem nodup_firstOccur {K : Type} [DecidableEq K] (l : List K) :
    (firstOccur l).Nodup :=
  nodup_firstOccur_foldl l [] List.nodup_nil

theorem firstOccur_snoc {K : Type} [DecidableEq K] (l : List K) (k : K) :
    firstOccur (l ++ [k]) =
      if k ∈ firstOccur l then firstOccur l else firstOccur l ++ [k] := by
  simp [firstOccur, List.foldl_append]

/-! ### Shape of dicts built by `dappend` and `dbump` folds -/

theorem dappend_map_of_mem {K V : Type} [DecidableEq K] (k : K) (v : V) (ks : List K)
    (B : K → List V) (hnd : ks.Nodup) (h : k ∈ ks) :
    dappend k v (ks.map (fun x => (x, B x))) =
      ks.map (fun x => (x, if x = k then B x ++ [v] else B x)) := by
  induction ks with
  | nil => cases h
  | cons a ks ih =>
    simp only [List.nodup_cons] at hnd
    by_cases ha : a = k
    · subst ha
      have : ∀ x ∈ ks, ((fun x => (x, if x = a then B x ++ [v] else B x)) x) =
          ((fun x => (x, B x)) x) := by
        intro x hx
        simp only
        rw [if_neg]
        intro hxa
        exact hnd.1 (hxa ▸ hx)
      simp [dappend, List.map_congr_left this]
    · rcases List.mem_cons.mp h with h1 | h1
      · exact absurd h1.symm ha
      · simp [dappend, ha, ih hnd.2 h1]

theorem dappend_snoc_of_not_mem {K V : Type} [DecidableEq K] (k : K) (v : V) (ks : List K)
    (B : K → List V) (h : k ∉ ks) :
    dappend k v (ks.map (fun x => (x, B x))) =
      ks.map (fun x => (x, B x)) ++ [(k, [v])] := by
  induction ks with
  | nil => rfl
  | cons a ks ih =>
    have ha : a ≠ k := fun hh => h (hh ▸ List.mem_cons_self a ks)
    simp only [List.map_cons, dappend, if_neg ha, List.cons_append, List.cons.injEq, true_and]
    exact ih (fun hh => h (List.mem_cons_of_mem _ hh))

theorem dbump_map_of_mem {K : Type} [DecidableEq K] (k : K) (n : Nat) (ks : List K)
    (B : K → Nat) (hnd : ks.Nodup) (h : k ∈ ks) :
    dbump k n (ks.map (fun x => (x, B x))) =
      ks.map (fun x => (x, if x = k then B x + n else B x)) := by
  induction ks with
  | nil => cases h
  | cons a ks ih =>
    simp only [List.nodup_cons] at hnd
    by_cases ha : a = k
    · subst ha
      have : ∀ x ∈ ks, ((fun x => (x, if x = a then B x + n else B x)) x) =
          ((fun x => (x, B x)) x) := by
        intro x hx
        simp only
        rw [if_neg]
        intro hxa
        exact hnd.1 (hxa ▸ hx)
      simp [dbump, List.map_congr_left this]
    · rcases List.mem_cons.mp h with h1 | h1
      · exact absurd h1.symm ha
      · simp [dbump, ha, ih hnd.2 h1]

theorem dbump_snoc_of_not_mem {K : Type} [DecidableEq K] (k : K) (n : Nat) (ks : List K)
    (B : K → Nat) (h : k ∉ ks) :
    dbump k n (ks.map (fun x => (x, B x))) = ks.map (fun x => (x, B x)) ++ [(k, n)] := by
  induction ks with
  | nil => rfl
  | cons a ks ih =>
    have ha : a ≠ k := fun hh => h (hh ▸ List.mem_cons_self a ks)
    simp only [List.map_cons, dbump, if_neg ha, List.cons_append, List.cons.injEq, true_and]
    exact ih (fun hh => h (List.mem_cons_of_mem _ hh))

theorem dgroupBy_shape {K V : Type} [DecidableEq K] (l : List (K × V)) :
    dgroupBy l = (firstOccur (l.map (·.1))).map
      (fun k => (k, (l.filter (fun e => e.1 = k)).map (·.2))) := by
  induction l using List.reverseRecOn with
  | nil => rfl
  | append_singleton l e ih =>
    have hsnoc : dgroupBy (l ++ [e]) = dappend e.1 e.2 (dgroupBy l) := by
      simp [dgroupBy, List.foldl_append]
    rw [hsnoc, ih]
    have hkeys : (l ++ [e]).map (·.1) = l.map (·.1) ++ [e.1] := by simp
    rw [hkeys, firstOccur_snoc]
    by_cases hmem : e.1 ∈ firstOccur (l.map (·.1))
    · rw [if_pos hmem]
      rw [dappend_map_of_mem e.1 e.2 _ _ (nodup_firstOccur _) hmem]
      refine List.map_congr_left ?_
      intro k _
      simp only [Prod.mk.injEq, true_and, List.filter_append]
      by_cases hk : k = e.1
      · subst hk
        simp
      · rw [if_neg hk]
        have : List.filter (fun ee => decide (ee.1 = k)) [e] = [] := by
          simp [Ne.symm hk]
        rw [this, List.append_nil]
    · rw [if_neg hmem]
      rw [dappend_snoc_of_not_mem e.1 e.2 _ _ hmem]
      rw [mem_firstOccur] at hmem
      have hlast : (List.filter (fun ee => decide (ee.1 = e.1)) (l ++ [e])).map (·.2) =
          [e.2] := by
        rw [List.filter_append]
        have h1 : List.filter (fun ee => decide (ee.1 = e.1)) l = [] := by
          rw [List.filter_eq_nil_iff]
          intro a ha
          simp only [decide_eq_true_eq]
          intro haa
          exact hmem (haa ▸ List.mem_map_of_mem (·.1) ha)
        simp [h1]
      rw [List.map_append]
      congr 1
      · refine List.map_congr_left ?_
        intro k hk
        have hkne : k ≠ e.1 := by
          rw [mem_firstOccur] at hk
          intro hh
          exact hmem (hh ▸ hk)
        simp only [Prod.mk.injEq, true_and, List.filter_append]
        have : List.filter (fun ee => decide (ee.1 = k)) [e] = [] := by
          simp [Ne.symm hkne]
        rw [this, List.append_nil]
      · simp [hlast]
        intro a b hab haa
        exact hmem (haa ▸ List.mem_map_of_mem (·.1) hab)

theorem dcount_shape {K : Type} [DecidableEq K] (l : List K) :
    dcount l = (firstOccur l).map (fun k => (k, l.count k)) := by
  induction l using List.reverseRecOn with
  | nil => rfl
  | append_singleton l e ih =>
    have hsnoc : dcount (l ++ [e]) = dbump e 1 (dcount l) := by
      simp [dcount, List.foldl_append]
    rw [hsnoc, ih, firstOccur_snoc]
    by_cases hmem : e ∈ firstOccur l
    · rw [if_pos hmem]
      rw [dbump_map_of_mem e 1 _ _ (nodup_firstOccur _) hmem]
      refine List.map_congr_left ?_
      intro k _
      simp only [Prod.mk.injEq, true_and, List.count_append]
      by_cases hk : k = e
      · subst hk
        simp [List.count_singleton]
      · simp [List.count_singleton, hk]
    · rw [if_neg hmem]
      rw [dbump_snoc_of_not_mem e 1 _ _ hmem]
      rw [mem_firstOccur] at hmem
      rw [List.map_append]
      congr 1
      · refine List.map_congr_left ?_
        intro k hk
        have hkne : k ≠ e := by
          rw [mem_firstOccur] at hk
          intro hh
          exact hmem (hh ▸ hk)
        simp [List.count_append, List.count_singleton, hkne]
      · have : List.count e l = 0 := List.count_eq_zero.mpr hmem
        simp [List.count_append, this]

/-! ### Sums and values of counting dicts -/

theorem sumVals_dbump (k : String) (n : Nat) (m : List (String × Nat)) :
    sumVals (dbump k n m) = sumVals m + n := by
  induction m with
  | nil => simp [dbump, sumVals]
  | cons e m ih =>
    by_cases h : e.1 = k
    · simp [dbump, h, sumVals]
      omega
    · simp only [dbump, if_neg h, sumVals, List.map_cons, List.sum_cons] at *
      omega

theorem valueOf_dbump (k' k : String) (n : Nat) (m : List (String × Nat)) :
    valueOf k' (dbump k n m) = valueOf k' m + (if k' = k then n else 0) := by
  induction m with
  | nil =>
    by_cases h : k' = k
    · subst h; simp [dbump, valueOf, dlookup]
    · simp [dbump, valueOf, dlookup, Ne.symm h, h]
  | cons e m ih =>
    by_cases h : e.1 = k
    · subst h
      by_cases h' : e.1 = k'
      · subst h'
        simp [dbump, valueOf, dlookup]
      · simp [dbump, valueOf, dlookup, h', Ne.symm h']
    · by_cases h' : e.1 = k'
      · subst h'
        simp [dbump, h, valueOf, dlookup, Ne.symm h]
      · simp only [dbump, if_neg h, valueOf, dlookup, if_neg h'] at *
        exact ih

/-! ### Characterization of `calculate_collisions` -/

theorem country_counts_eq (competitors : List (String × Competitor)) (ids : List String) :
    country_counts competitors ids = dcount (ids.map (countryOf competitors)) := by
  simp [country_counts, dcount, List.foldl_map]

theorem group_assignments_eq (A : List ((String × String) × String)) :
    group_assignments A = dgroupBy (A.map (fun e => (e.1.1, e.2))) := by
  simp [group_assignments, dgroupBy, List.foldl_map]

theorem group_assignments_shape (A : List ((String × String) × String)) :
    group_assignments A = (gidsOf A).map (fun gid => (gid, groupMembers gid A)) := by
  rw [group_assignments_eq, dgroupBy_shape]
  have hkeys : (A.map (fun e => (e.1.1, e.2))).map (·.1) = A.map (·.1.1) := by
    simp [List.map_map]
  rw [hkeys]
  refine List.map_congr_left ?_
  intro k _
  simp only [Prod.mk.injEq, true_and, gidsOf, groupMembers]
  rw [List.filter_map, List.map_map]
  rfl

theorem collisionStep_foldl_fst (cc : List (String × Nat)) (acc : Nat × List (String × Nat)) :
    (cc.foldl collisionStep acc).1 =
      acc.1 + (cc.map (fun cn => if cn.2 > 1 then pairsOf cn.2 else 0)).sum := by
  induction cc generalizing acc with
  | nil => simp
  | cons cn cc ih =>
    simp only [List.foldl_cons, List.map_cons, List.sum_cons]
    rw [ih]
    unfold collisionStep
    by_cases h : cn.2 > 1
    · simp [h, Nat.add_assoc]
    · simp [h]

theorem collisionStep_foldl_sumVals (cc : List (String × Nat))
    (acc : Nat × List (String × Nat)) :
    sumVals (cc.foldl collisionStep acc).2 =
      sumVals acc.2 + (cc.map (fun cn => if cn.2 > 1 then pairsOf cn.2 else 0)).sum := by
  induction cc generalizing acc with
  | nil => simp
  | cons cn cc ih =>
    simp only [List.foldl_cons, List.map_cons, List.sum_cons]
    rw [ih]
    unfold collisionStep
    by_cases h : cn.2 > 1
    · simp [h, sumVals_dbump, Nat.add_assoc]
    · simp [h]

theorem collisionStep_foldl_valueOf (c : String) (cc : List (String × Nat))
    (acc : Nat × List (String × Nat)) :
    valueOf c (cc.foldl collisionStep acc).2 =
      valueOf c acc.2 +
        (cc.map (fun cn => if cn.1 = c ∧ cn.2 > 1 then pairsOf cn.2 else 0)).sum := by
  induction cc generalizing acc with
  | nil => simp
  | cons cn cc ih =>
    simp only [List.foldl_cons, List.map_cons, List.sum_cons]
    rw [ih]
    have hstep : valueOf c (collisionStep acc cn).2 =
        valueOf c acc.2 + (if cn.1 = c ∧ cn.2 > 1 then pairsOf cn.2 else 0) := by
      unfold collisionStep
      by_cases h : cn.2 > 1
      · rw [if_pos h]
        dsimp only
        rw [valueOf_dbump]
        by_cases hc : cn.1 = c
        · rw [if_pos hc.symm, if_pos ⟨hc, h⟩]
        · have hcc : ¬ (c = cn.1) := fun hh => hc hh.symm
          have hcc2 : ¬ (cn.1 = c ∧ cn.2 > 1) := fun hh => hc hh.1
          rw [if_neg hcc, if_neg hcc2]
      · have hcc2 : ¬ (cn.1 = c ∧ cn.2 > 1) := fun hh => h hh.2
        rw [if_neg h, if_neg hcc2]
        omega
    rw [hstep]
    omega

theorem groupStep_foldl_fst (competitors : List (String × Competitor))
    (gs : List (String × List String)) (acc : Nat × List (String × Nat)) :
    (gs.foldl (collisionGroupStep competitors) acc).1 =
      acc.1 + (gs.map (fun ge => bucketScore competitors ge.2)).sum := by
  induction gs generalizing acc with
  | nil => simp
  | cons ge gs ih =>
    simp only [List.foldl_cons, List.map_cons, List.sum_cons]
    rw [ih]
    unfold collisionGroupStep
    rw [collisionStep_foldl_fst]
    rw [Nat.add_assoc]
    rfl

theorem groupStep_foldl_sumVals (competitors : List (String × Competitor))
    (gs : List (String × List String)) (acc : Nat × List (String × Nat)) :
    sumVals (gs.foldl (collisionGroupStep competitors) acc).2 =
      sumVals acc.2 + (gs.map (fun ge => bucketScore competitors ge.2)).sum := by
  induction gs generalizing acc with
  | nil => simp
  | cons ge gs ih =>
    simp only [List.foldl_cons, List.map_cons, List.sum_cons]
    rw [ih]
    unfold collisionGroupStep
    rw [collisionStep_foldl_sumVals]
    rw [Nat.add_assoc]
    rfl

theorem groupStep_foldl_valueOf (c : String) (competitors : List (String × Competitor))
    (gs : List (String × List String)) (acc : Nat × List (String × Nat)) :
    valueOf c (gs.foldl (collisionGroupStep competitors) acc).2 =
      valueOf c acc.2 + (gs.map (fun ge => bucketScoreFor c competitors ge.2)).sum := by
  induction gs generalizing acc with
  | nil => simp
  | cons ge gs ih =>
    simp only [List.foldl_cons, List.map_cons, List.sum_cons]
    rw [ih]
    unfold collisionGroupStep
    rw [collisionStep_foldl_valueOf]
    rw [Nat.add_assoc]
    rfl

theorem pairsOf_of_le_one {n : Nat} (h : n ≤ 1) : pairsOf n = 0 := by
  interval_cases n <;> rfl

theorem sum_map_ite_eq {K : Type} [DecidableEq K] (ks : List K) (c : K) (F : K → Nat)
    (hnd : ks.Nodup) :
    (ks.map (fun k => if k = c then F k else 0)).sum = if c ∈ ks then F c else 0 := by
  induction ks with
  | nil => simp
  | cons a ks ih =>
    simp only [List.nodup_cons] at hnd
    simp only [List.map_cons, List.sum_cons]
    by_cases ha : a = c
    · subst ha
      have hz : (ks.map (fun k => if k = a then F k else 0)).sum = 0 := by
        refine List.sum_eq_zero ?_
        intro x hx
        rcases List.mem_map.mp hx with ⟨k, hk, rfl⟩
        rw [if_neg]
        intro hh
        exact hnd.1 (hh ▸ hk)
      simp [hz]
    · rw [if_neg ha, ih hnd.2]
      have hmm : c ∈ a :: ks ↔ c ∈ ks := by
        constructor
        · intro hcc
          rcases List.mem_cons.mp hcc with rfl | hcc
          · exact absurd rfl ha
          · exact hcc
        · exact fun hcc => List.mem_cons_of_mem _ hcc
      by_cases hc : c ∈ ks
      · rw [if_pos hc, if_pos (hmm.mpr hc)]
        omega
      · rw [if_neg hc, if_neg (fun hh => hc (hmm.mp hh))]

theorem bucketScoreFor_eq (c : String) (competitors : List (String × Competitor))
    (ids : List String) :
    bucketScoreFor c competitors ids = pairsOf ((ids.map (countryOf competitors)).count c) := by
  unfold bucketScoreFor
  rw [country_counts_eq, dcount_shape, List.map_map]
  have hfun : ∀ k,
      ((fun cn => if cn.1 = c ∧ cn.2 > 1 then pairsOf cn.2 else 0) ∘
        (fun k => (k, (ids.map (countryOf competitors)).count k))) k =
      (fun k => if k = c then
        (if (ids.map (countryOf competitors)).count k > 1 then
          pairsOf ((ids.map (countryOf competitors)).count k) else 0) else 0) k := by
    intro k
    simp only [Function.comp]
    by_cases h1 : k = c <;> by_cases h2 : (ids.map (countryOf competitors)).count k > 1 <;>
      simp [h1, h2]
  rw [List.map_congr_left (fun k _ => hfun k)]
  rw [sum_map_ite_eq _ _ _ (nodup_firstOccur _)]
  by_cases hmem : c ∈ firstOccur (ids.map (countryOf competitors))
  · rw [if_pos hmem]
    by_cases h2 : (ids.map (countryOf competitors)).count c > 1
    · rw [if_pos h2]
    · rw [if_neg h2, pairsOf_of_le_one (by omega)]
  · rw [if_neg hmem]
    rw [mem_firstOccur] at hmem
    rw [List.count_eq_zero.mpr hmem]
    rfl

theorem calculate_collisions_fst (A : List ((String × String) × String))
    (competitors : List (String × Competitor)) (groups : List (String × Group)) :
    (calculate_collisions A competitors groups).1 =
      ((gidsOf A).map (fun gid => bucketScore competitors (groupMembers gid A))).sum := by
  unfold calculate_collisions
  rw [groupStep_foldl_fst, group_assignments_shape, List.map_map]
  simp only [Nat.zero_add]
  refine congrArg List.sum (List.map_congr_left ?_)
  intro gid _
  rfl

theorem calculate_collisions_sumVals (A : List ((String × String) × String))
    (competitors : List (String × Competitor)) (groups : List (String × Group)) :
    sumVals (calculate_collisions A competitors groups).2 =
      ((gidsOf A).map (fun gid => bucketScore competitors (groupMembers gid A))).sum := by
  unfold calculate_collisions
  rw [groupStep_foldl_sumVals, group_assignments_shape, List.map_map]
  have hz : sumVals ((0 : Nat), ([] : List (String × Nat))).2 = 0 := rfl
  rw [hz, Nat.zero_add]
  refine congrArg List.sum (List.map_congr_left ?_)
  intro gid _
  rfl

theorem calculate_collisions_valueOf (c : String) (A : List ((String × String) × String))
    (competitors : List (String × Competitor)) (groups : List (String × Group)) :
    valueOf c (calculate_collisions A competitors groups).2 = specPerCountry competitors A c := by
  unfold calculate_collisions
  rw [groupStep_foldl_valueOf, group_assignments_shape, List.map_map]
  unfold specPerCountry
  have : ∀ gid, ((fun ge => bucketScoreFor c competitors ge.2) ∘
      (fun gid => (gid, groupMembers gid A))) gid =
      pairsOf (((groupMembers gid A).map (countryOf competitors)).count c) := by
    intro gid
    simp only [Function.comp]
    exact bucketScoreFor_eq c competitors (groupMembers gid A)
  rw [List.map_congr_left (fun gid _ => this gid)]
  simp [valueOf, dlookup]

/-! ### Characterization of `validate_inputs` -/

theorem checkPins_eq_none (competitors : List (String × Competitor))
    (groups : List (String × Group)) (fixed : List (String × (String × String))) :
    checkPins competitors groups fixed = none ↔
      ∀ e ∈ fixed, dmem e.1 competitors = true ∧
        ∃ g, dlookup e.2.1 groups = some g ∧ e.2.2 ∈ g.positions := by
  induction fixed with
  | nil => simp [checkPins]
  | cons e rest ih =>
    rw [List.forall_mem_cons]
    by_cases h1 : dmem e.1 competitors = true
    · cases hg : dlookup e.2.1 groups with
      | none => simp [checkPins, h1, hg]
      | some g =>
        by_cases h2 : e.2.2 ∈ g.positions
        · simp [checkPins, h1, hg, h2, ih]
        · simp [checkPins, h1, hg, h2]
    · simp [checkPins, h1]

theorem positionBuckets_eq (fixed : List (String × (String × String))) :
    positionBuckets fixed = dgroupBy (fixed.map (fun e => (e.2, e.1))) := by
  simp [positionBuckets, dgroupBy, List.foldl_map]

theorem count_eq_countP_decide {α : Type} [DecidableEq α] (s : α) (l : List α) :
    l.count s = l.countP (fun x => decide (x = s)) := rfl

theorem positionBuckets_find_none (fixed : List (String × (String × String))) :
    (positionBuckets fixed).find? (fun b => b.2.length > 1) = none ↔
      (fixed.map (·.2)).Nodup := by
  rw [positionBuckets_eq, dgroupBy_shape, List.find?_eq_none]
  have hkeys : (fixed.map (fun e => (e.2, e.1))).map (·.1) = fixed.map (·.2) := by
    simp [List.map_map]
  rw [hkeys]
  have hlen : ∀ s : String × String,
      ((((fixed.map (fun e => (e.2, e.1))).filter (fun ee => ee.1 = s)).map (·.2)).length)
        = (fixed.map (·.2)).countP (fun x => decide (x = s)) := by
    intro s
    rw [List.length_map, List.filter_map, List.length_map]
    rw [List.countP_eq_length_filter, List.filter_map, List.length_map]
    congr 1
  constructor
  · intro h
    rw [List.nodup_iff_count_le_one]
    intro s
    rw [count_eq_countP_decide]
    by_cases hs : s ∈ fixed.map (·.2)
    · have hmem : (s, ((fixed.map (fun e => (e.2, e.1))).filter
          (fun ee => ee.1 = s)).map (·.2)) ∈
          (firstOccur (fixed.map (·.2))).map (fun k =>
            (k, ((fixed.map (fun e => (e.2, e.1))).filter (fun ee => ee.1 = k)).map (·.2))) :=
        List.mem_map_of_mem _ ((mem_firstOccur _ _).mpr hs)
      have hb := h _ hmem
      simp only [decide_eq_true_eq, gt_iff_lt, not_lt] at hb
      rw [← hlen s]
      exact hb
    · have : (fixed.map (·.2)).countP (fun x => decide (x = s)) = 0 := by
        rw [List.countP_eq_zero]
        intro a ha
        simp only [decide_eq_true_eq]
        intro haa
        exact hs (haa ▸ ha)
      omega
  · intro hnd b hb
    rcases List.mem_map.mp hb with ⟨s, _, rfl⟩
    simp only [decide_eq_true_eq, gt_iff_lt, not_lt]
    rw [hlen s]
    rw [← count_eq_countP_decide]
    exact List.nodup_iff_count_le_one.mp hnd s

theorem validate_inputs_true_iff (competitors : List (String × Competitor))
    (groups : List (String × Group)) (fixed : List (String × (String × String))) :
    (validate_inputs competitors groups fixed).1 = true ↔
      ValidSpec competitors groups fixed := by
  unfold validate_inputs ValidSpec
  by_cases hlen : competitors.length = (groups.map (fun g => g.2.capacity)).sum
  · rw [if_neg (not_not_intro hlen)]
    cases hcp : checkPins competitors groups fixed with
    | some msg =>
      simp only
      constructor
      · intro h; cases h
      · rintro ⟨_, hpins, _⟩
        have hnone := (checkPins_eq_none competitors groups fixed).mpr hpins
        rw [hnone] at hcp
        cases hcp
    | none =>
      cases hdup : (positionBuckets fixed).find? (fun b => b.2.length > 1) with
      | some b =>
        simp only
        constructor
        · intro h; cases h
        · rintro ⟨_, _, hnd⟩
          have hnone := (positionBuckets_find_none fixed).mpr hnd
          rw [hnone] at hdup
          cases hdup
      | none =>
        simp only
        constructor
        · intro _
          exact ⟨hlen, (checkPins_eq_none competitors groups fixed).mp hcp,
            (positionBuckets_find_none fixed).mp hdup⟩
        · intro _; trivial
  · rw [if_pos hlen]
    simp only
    constructor
    · intro h; cases h
    · rintro ⟨h, _, _⟩
      exact absurd h hlen

/-! ### Claim theorems -/

/-- C3: for every assignment mapping (over competitors that exist) the
total returned by `calculate_collisions` equals the sum of the per-country
values, and each per-country value equals the sum over groups of
`n*(n-1)/2` where `n` is the number of that country's competitors placed
in that group. -/
theorem claim_collision_metric (A : List ((String × String) × String))
    (competitors : List (String × Competitor)) (groups : List (String × Group))
    (_hA : ∀ e ∈ A, dmem e.2 competitors = true) :
    (calculate_collisions A competitors groups).1 =
      sumVals (calculate_collisions A competitors groups).2 ∧
    ∀ country, valueOf country (calculate_collisions A competitors groups).2 =
      specPerCountry competitors A country := by
  refine ⟨?_, fun country => calculate_collisions_valueOf country A competitors groups⟩
  rw [calculate_collisions_fst, calculate_collisions_sumVals]

/-- Witness for C3 at a concrete assignment of three competitors. -/
theorem claim_collision_metric_witness :
    (∀ e ∈ exAssignment, dmem e.2 exCompetitors = true) ∧
    (calculate_collisions exAssignment exCompetitors exGroups).1 =
      sumVals (calculate_collisions exAssignment exCompetitors exGroups).2 ∧
    valueOf "JPN" (calculate_collisions exAssignment exCompetitors exGroups).2 =
      specPerCountry exCompetitors exAssignment "JPN" :=
  ⟨by decide,
   (claim_collision_metric exAssignment exCompetitors exGroups (by decide)).1,
   (claim_collision_metric exAssignment exCompetitors exGroups (by decide)).2 "JPN"⟩

/-- C4: `validate_inputs` returns true exactly when the total competitor
count equals the total capacity, every pin references an existing
competitor, an existing group and a valid seat for that group, and no two
pins target the same `(groupId, seat)`.  As a Lean function it is a pure
predicate by construction. -/
theorem claim_validate_inputs_iff (competitors : List (String × Competitor))
    (groups : List (String × Group)) (fixed_positions : List (String × (String × String))) :
    (validate_inputs competitors groups fixed_positions).1 = true ↔
      ValidSpec competitors groups fixed_positions :=
  validate_inputs_true_iff competitors groups fixed_positions

/-- C10: the result of `calculate_collisions` does not depend on the
`groups` argument at all, nor on anything about the competitors beyond the
country associated with each competitor id; it is well-defined on partial
assignment mappings (no totality hypothesis is required). -/
theorem claim_collisions_groups_independent (A : List ((String × String) × String))
    (competitors1 competitors2 : List (String × Competitor))
    (groups1 groups2 : List (String × Group))
    (h : ∀ cid, countryOf competitors1 cid = countryOf competitors2 cid) :
    calculate_collisions A competitors1 groups1 =
      calculate_collisions A competitors2 groups2 := by
  unfold calculate_collisions
  have hcc : ∀ ids, country_counts competitors1 ids = country_counts competitors2 ids := by
    intro ids
    rw [country_counts_eq, country_counts_eq]
    congr 1
    exact List.map_congr_left (fun cid _ => h cid)
  have hstep : collisionGroupStep competitors1 = collisionGroupStep competitors2 := by
    funext acc ge
    unfold collisionGroupStep
    rw [hcc]
  rw [hstep]

/-- Witness for C10: a strictly partial assignment (two of three seats),
two different competitor dicts with the same countries, and two different
groups dicts give identical results. -/
theorem claim_collisions_groups_independent_witness :
    (∀ cid, countryOf exCompetitors cid = countryOf exCompetitorsAlt cid) ∧
    calculate_collisions [(("1", "a"), "A"), (("1", "b"), "C")] exCompetitors exGroups =
      calculate_collisions [(("1", "a"), "A"), (("1", "b"), "C")] exCompetitorsAlt
        exGroupsTwo := by
  have hcountry : ∀ cid, countryOf exCompetitors cid = countryOf exCompetitorsAlt cid := by
    intro cid
    by_cases h1 : "A" = cid
    · simp [countryOf, exCompetitors, exCompetitorsAlt, dlookup, h1]
    · by_cases h2 : "B" = cid
      · simp [countryOf, exCompetitors, exCompetitorsAlt, dlookup, h1, h2]
      · by_cases h3 : "C" = cid <;>
          simp [countryOf, exCompetitors, exCompetitorsAlt, dlookup, h1, h2, h3]
  exact ⟨hcountry, claim_collisions_groups_independent _ _ _ _ _ hcountry⟩

/-! ### Lemmas about the optimizer loop -/

theorem optLoop_spec (competitors : List (String × Competitor))
    (groups : List (String × Group)) (fixed_positions : List (String × (String × String)))
    (random_seed : Option Int) (streams : Nat → List Nat) (expired : Nat → Bool) :
    ∀ (fuel attempt : Nat) (best : Option Assignment),
      (∀ b, best = some b →
        ∃ A, optLoop competitors groups fixed_positions random_seed streams expired
            fuel attempt best = some A ∧ A.collision_count ≤ b.collision_count) ∧
      ((optTried competitors groups fixed_positions random_seed streams expired
          fuel attempt best ≠ [] ∨ best.isSome = true) →
        (optLoop competitors groups fixed_positions random_seed streams expired
          fuel attempt best).isSome = true) ∧
      (∀ i ∈ optTried competitors groups fixed_positions random_seed streams expired
          fuel attempt best,
        ∀ A, optLoop competitors groups fixed_positions random_seed streams expired
            fuel attempt best = some A →
          A.collision_count ≤
            (optAttempt competitors groups fixed_positions random_seed streams i).collision_count) := by
  intro fuel
  induction fuel with
  | zero =>
    intro attempt best
    refine ⟨?_, ?_, ?_⟩
    · intro b hb
      exact ⟨b, by simp [optLoop, hb], Nat.le_refl _⟩
    · intro h
      rcases h with h | h
      · exact absurd rfl h
      · simpa [optLoop] using h
    · intro i hi
      simp [optTried] at hi
  | succ fuel ih =>
    intro attempt best
    by_cases hexp : expired attempt = true
    · refine ⟨?_, ?_, ?_⟩
      · intro b hb
        exact ⟨b, by simp [optLoop, hexp, hb], Nat.le_refl _⟩
      · intro h
        rcases h with h | h
        · exact absurd (by simp [optTried, hexp]) h
        · simpa [optLoop, hexp] using h
      · intro i hi
        simp [optTried, hexp] at hi
    · have hloop : optLoop competitors groups fixed_positions random_seed streams expired
          (fuel + 1) attempt best =
          (let cur := optAttempt competitors groups fixed_positions random_seed streams attempt
          if betterThan cur.collision_count best then
            if cur.collision_count = 0 then some cur
            else optLoop competitors groups fixed_positions random_seed streams expired
              fuel (attempt + 1) (some cur)
          else optLoop competitors groups fixed_positions random_seed streams expired
            fuel (attempt + 1) best) := by
        simp [optLoop, hexp]
      have htried : optTried competitors groups fixed_positions random_seed streams expired
          (fuel + 1) attempt best =
          (let cur := optAttempt competitors groups fixed_positions random_seed streams attempt
          attempt ::
            (if betterThan cur.collision_count best then
              if cur.collision_count = 0 then []
              else optTried competitors groups fixed_positions random_seed streams expired
                fuel (attempt + 1) (some cur)
            else optTried competitors groups fixed_positions random_seed streams expired
              fuel (attempt + 1) best)) := by
        simp [optTried, hexp]
      simp only at hloop htried
      set cur := optAttempt competitors groups fixed_positions random_seed streams attempt with hcur
      by_cases hbet : betterThan cur.collision_count best = true
      · by_cases hzero : cur.collision_count = 0
        · rw [if_pos hbet, if_pos hzero] at hloop htried
          refine ⟨?_, ?_, ?_⟩
          · intro b hb
            refine ⟨cur, hloop, ?_⟩
            rw [hb] at hbet
            unfold betterThan at hbet
            exact Nat.le_of_lt (by exact_mod_cast (by simpa using hbet))
          · intro _
            rw [hloop]
            rfl
          · intro i hi A hA
            rw [htried] at hi
            rcases List.mem_cons.mp hi with rfl | hi
            · rw [hloop] at hA
              injection hA with hinj
              rw [← hcur, ← hinj]
            · simp at hi
        · rw [if_pos hbet, if_neg hzero] at hloop htried
          obtain ⟨iha, ihb, ihc⟩ := ih (attempt + 1) (some cur)
          refine ⟨?_, ?_, ?_⟩
          · intro b hb
            obtain ⟨A, hA, hle⟩ := iha cur rfl
            refine ⟨A, hloop ▸ hA, ?_⟩
            rw [hb] at hbet
            unfold betterThan at hbet
            have : cur.collision_count < b.collision_count := by simpa using hbet
            omega
          · intro _
            obtain ⟨A, hA, _⟩ := iha cur rfl
            rw [hloop, hA]
            rfl
          · intro i hi A hA
            rw [htried] at hi
            rw [hloop] at hA
            rcases List.mem_cons.mp hi with rfl | hi
            · obtain ⟨A', hA', hle⟩ := iha cur rfl
              rw [hA] at hA'
              injection hA' with hinj
              rw [← hcur, hinj]
              exact hle
            · exact ihc i hi A hA
      · rw [if_neg hbet] at hloop htried
        obtain ⟨b, hb⟩ : ∃ b, best = some b := by
          cases best with
          | none =>
            exfalso
            apply hbet
            rfl
          | some b => exact ⟨b, rfl⟩
        have hge : b.collision_count ≤ cur.collision_count := by
          rw [hb] at hbet
          unfold betterThan at hbet
          simpa using hbet
        obtain ⟨iha, ihb, ihc⟩ := ih (attempt + 1) best
        refine ⟨?_, ?_, ?_⟩
        · intro b' hb'
          obtain ⟨A, hA, hle⟩ := iha b' hb'
          exact ⟨A, hloop ▸ hA, hle⟩
        · intro _
          obtain ⟨A, hA, _⟩ := iha b hb
          rw [hloop, hA]
          rfl
        · intro i hi A hA
          rw [htried] at hi
          rw [hloop] at hA
          rcases List.mem_cons.mp hi with rfl | hi
          · obtain ⟨A', hA', hle⟩ := iha b hb
            rw [hA] at hA'
            injection hA' with hinj
            rw [← hcur]
            have hAb : A.collision_count ≤ b.collision_count := by
              rw [hinj]
              exact hle
            omega
          · exact ihc i hi A hA

/-! ### Lemmas about skipped placement when all groups are full -/

theorem bestGroupStep_of_full (counts : String → String → Nat) (country : String)
    (acc : Option Nat × List String) (gg : String × Group)
    (h : availablePositions gg.2 = []) :
    bestGroupStep counts country acc gg = acc := by
  unfold bestGroupStep
  rw [h]
  simp

theorem findBestGroups_of_full (counts : String → String → Nat) (country : String)
    (groups : List (String × Group))
    (h : ∀ gg ∈ groups, availablePositions gg.2 = []) :
    findBestGroups counts country groups = [] := by
  unfold findBestGroups
  have : ∀ acc : Option Nat × List String,
      groups.foldl (bestGroupStep counts country) acc = acc := by
    induction groups with
    | nil => intro acc; rfl
    | cons gg rest ih =>
      intro acc
      rw [List.foldl_cons, bestGroupStep_of_full _ _ _ _ (h gg (List.mem_cons_self gg rest))]
      exact ih (fun x hx => h x (List.mem_cons_of_mem _ hx)) acc
  rw [this (none, [])]

/-! ### More claim theorems -/

/-- C5 (corrected): with `minimization = true`, the caller's groups dict is
unchanged by `improved_assign_competitors` — the optimizer works on fresh
per-attempt copies only.  (With `minimization = false` the claim fails: the
single systematic pass fills the caller's groups in place; see the
counterexample.) -/
theorem claim_inputs_readonly_minimize (competitors : List (String × Competitor))
    (groups : List (String × Group)) (fixed_positions : List (String × (String × String)))
    (random_seed : Option Int) (streams : Nat → List Nat) (expired : Nat → Bool) :
    (improved_assign_competitors competitors groups fixed_positions random_seed true
      streams expired).2 = groups := rfl

/-- Counterexample to C5 as stated: a `minimization = false` call returns
with the caller's groups mutated (their `assigned_positions` filled). -/
theorem claim_inputs_readonly_counterexample :
    (improved_assign_competitors exCompetitors exGroups [] none false (fun _ => [])
      (fun _ => true)).2 ≠ exGroups := by decide

/-- C6 (corrected): when the time budget is already expired before the
first attempt (zero attempts complete), `optimized_systematic_assignment`
returns `none` (Python `None`) — no `ExhaustedBudgetError` or any other
error is raised. -/
theorem claim_budget_expired_returns_none (competitors : List (String × Competitor))
    (groups : List (String × Group)) (fixed_positions : List (String × (String × String)))
    (random_seed : Option Int) (streams : Nat → List Nat) (expired : Nat → Bool)
    (h : expired 0 = true) :
    optimized_systematic_assignment competitors groups fixed_positions random_seed
      streams expired = none := by
  unfold optimized_systematic_assignment
  have h100 : (100 : Nat) = 99 + 1 := rfl
  rw [h100]
  simp [optLoop, h]

/-- Witness for C6's corrected statement. -/
theorem claim_budget_expired_returns_none_witness :
    ((fun _ : Nat => true) 0 = true) ∧
    optimized_systematic_assignment exCompetitors exGroups [] none (fun _ => [])
      (fun _ => true) = none :=
  ⟨rfl, claim_budget_expired_returns_none exCompetitors exGroups [] none (fun _ => [])
    (fun _ => true) rfl⟩

/-- Counterexample to C6 as stated: with the budget already expired, the
optimizer returns the undefined result `none` instead of surfacing an
error condition. -/
theorem claim_budget_error_counterexample :
    optimized_systematic_assignment exCompetitors exGroups [] none (fun _ => [])
      (fun _ => true) = none := by decide

/-- C9 (corrected): when every group is already full while a competitor
still needs placement, the placement step silently does nothing — the
competitor is skipped and the pass returns a partial `Assignment` (no
invariant violation is raised). -/
theorem claim_full_groups_skip (country comp : String) (st : PState)
    (h : ∀ gg ∈ st.groups, availablePositions gg.2 = []) :
    placeOne country comp st = st := by
  unfold placeOne
  rw [findBestGroups_of_full st.counts country st.groups h]

/-- Witness for C9's corrected statement at a fully occupied state. -/
theorem claim_full_groups_skip_witness :
    (∀ gg ∈ exFullState.groups, availablePositions gg.2 = []) ∧
    placeOne "DDD" "X" exFullState = exFullState :=
  ⟨by decide, claim_full_groups_skip "DDD" "X" exFullState (by decide)⟩

/-- Counterexample to C9 as stated: a full systematic pass with a fourth
competitor "X" and all seats pinned returns normally with a partial
assignment that omits "X" — nothing is surfaced loudly. -/
theorem claim_full_groups_counterexample :
    ((systematic_country_assignment exCompetitorsFour exGroups exPinsFull none
        []).1.assignments.map (·.2) = ["P1", "P2", "P3"]) ∧
    "X" ∈ exCompetitorsFour.map (·.1) := by decide

/-- C7: whenever the optimizer completes at least one attempt, it returns
an `Assignment` whose collision count is at most that of every attempt it
tried. -/
theorem claim_optimizer_monotonic (competitors : List (String × Competitor))
    (groups : List (String × Group)) (fixed_positions : List (String × (String × String)))
    (random_seed : Option Int) (streams : Nat → List Nat) (expired : Nat → Bool)
    (h : optTried competitors groups fixed_positions random_seed streams expired
      100 0 none ≠ []) :
    ∃ A, optimized_systematic_assignment competitors groups fixed_positions random_seed
        streams expired = some A ∧
      ∀ i ∈ optTried competitors groups fixed_positions random_seed streams expired
          100 0 none,
        A.collision_count ≤
          (optAttempt competitors groups fixed_positions random_seed streams i).collision_count := by
  obtain ⟨_, hb, hc⟩ := optLoop_spec competitors groups fixed_positions random_seed
    streams expired 100 0 none
  have hsome := hb (Or.inl h)
  obtain ⟨A, hA⟩ := Option.isSome_iff_exists.mp hsome
  exact ⟨A, hA, fun i hi => hc i hi A hA⟩

/-- Witness for C7: a three-country input reaches a zero-collision result
on the first attempt, so exactly one attempt is tried. -/
theorem claim_optimizer_monotonic_witness :
    (optTried exCompetitorsDistinct exGroups [] none (fun _ => []) (fun _ => false)
      100 0 none ≠ []) ∧
    ∃ A, optimized_systematic_assignment exCompetitorsDistinct exGroups [] none
        (fun _ => []) (fun _ => false) = some A ∧
      ∀ i ∈ optTried exCompetitorsDistinct exGroups [] none (fun _ => [])
          (fun _ => false) 100 0 none,
        A.collision_count ≤
          (optAttempt exCompetitorsDistinct exGroups [] none (fun _ => []) i).collision_count :=
  ⟨by decide, claim_optimizer_monotonic exCompetitorsDistinct exGroups [] none
    (fun _ => []) (fun _ => false) (by decide)⟩

/-! ### The stream-driven shuffle is a permutation -/

theorem getD_cons_eraseIdx_perm {α : Type} (l : List α) (i : Nat) (d : α)
    (h : i < l.length) : l.getD i d :: l.eraseIdx i ~ l := by
  rw [List.getD_eq_getElem l d h, List.eraseIdx_eq_take_drop_succ]
  calc l[i] :: (l.take i ++ l.drop (i + 1))
      ~ l.take i ++ l[i] :: l.drop (i + 1) := List.perm_middle.symm
    _ = l := by rw [List.getElem_cons_drop, List.take_append_drop]

theorem rshuffleAux_perm {α : Type} (fuel : Nat) :
    ∀ (l : List α) (g : List Nat), l.length ≤ fuel → (rshuffleAux fuel l g).1 ~ l := by
  induction fuel with
  | zero =>
    intro l g h
    cases l with
    | nil => simp [rshuffleAux]
    | cons x xs => simp at h
  | succ fuel ih =>
    intro l g h
    cases l with
    | nil => simp [rshuffleAux]
    | cons x xs =>
      rcases hg : draw g with ⟨n, g1⟩
      have hi : n % (x :: xs).length < (x :: xs).length :=
        Nat.mod_lt _ (by simp)
      have hlen : ((x :: xs).eraseIdx (n % (x :: xs).length)).length ≤ fuel := by
        rw [List.length_eraseIdx, if_pos hi]
        simp only [List.length_cons] at h ⊢
        omega
      rcases hr : rshuffleAux fuel ((x :: xs).eraseIdx (n % (x :: xs).length)) g1
        with ⟨rest, g2⟩
      have hrest : rest ~ (x :: xs).eraseIdx (n % (x :: xs).length) := by
        have := ih ((x :: xs).eraseIdx (n % (x :: xs).length)) g1 hlen
        rw [hr] at this
        exact this
      have hres : (rshuffleAux (fuel + 1) (x :: xs) g).1 =
          (x :: xs).getD (n % (x :: xs).length) x :: rest := by
        simp [rshuffleAux, hg]
        rw [show (x :: xs).length = xs.length + 1 from rfl] at hr
        rw [hr]
      rw [hres]
      exact (hrest.cons _).trans (getD_cons_eraseIdx_perm _ _ _ hi)

theorem rshuffle_perm {α : Type} (l : List α) (g : List Nat) :
    (rshuffle l g).1 ~ l :=
  rshuffleAux_perm l.length l g (Nat.le_refl _)

/-! ### Rewriting a dict in place at a set of existing keys -/

theorem rewriteFn_fst {K V : Type} [DecidableEq K] (pairs : List (K × V)) (e : K × V) :
    (rewriteFn pairs e).1 = e.1 := by
  unfold rewriteFn
  cases dlookup e.1 pairs <;> rfl

theorem keys_map_rewriteFn {K V : Type} [DecidableEq K] (pairs A : List (K × V)) :
    (A.map (rewriteFn pairs)).map (·.1) = A.map (·.1) := by
  rw [List.map_map]
  exact List.map_congr_left (fun e _ => rewriteFn_fst pairs e)

theorem dlookup_map_rewriteFn_none {K V : Type} [DecidableEq K] {q : K}
    (pairs A : List (K × V)) (hq : dlookup q pairs = none) :
    dlookup q (A.map (rewriteFn pairs)) = dlookup q A := by
  induction A with
  | nil => rfl
  | cons e rest ih =>
    by_cases he : e.1 = q
    · have hfe : rewriteFn pairs e = e := by
        unfold rewriteFn
        rw [he, hq]
      simp only [List.map_cons, hfe, dlookup, if_pos he]
    · have hfe : (rewriteFn pairs e).1 = e.1 := rewriteFn_fst pairs e
      simp only [List.map_cons, dlookup, hfe, if_neg he, ih]

theorem dlookup_self_of_nodup {K V : Type} [DecidableEq K] {B : List (K × V)}
    (hB : (B.map (·.1)).Nodup) {e : K × V} (he : e ∈ B) :
    dlookup e.1 B = some e.2 := by
  induction B with
  | nil => cases he
  | cons b rest ih =>
    simp only [List.map_cons, List.nodup_cons] at hB
    rcases List.mem_cons.mp he with rfl | he'
    · simp [dlookup]
    · have hb : b.1 ≠ e.1 := by
        intro hh
        exact hB.1 (hh ▸ List.mem_map_of_mem (·.1) he')
      simp only [dlookup, if_neg hb]
      exact ih hB.2 he'

theorem foldl_dinsert_eq_map {K V : Type} [DecidableEq K] (pairs : List (K × V)) :
    ∀ (A : List (K × V)), ((A.map (·.1)).Nodup) → ((pairs.map (·.1)).Nodup) →
      (∀ k ∈ pairs.map (·.1), k ∈ A.map (·.1)) →
      pairs.foldl (fun a qc => dinsert qc.1 qc.2 a) A = A.map (rewriteFn pairs) := by
  induction pairs with
  | nil =>
    intro A _ _ _
    simp only [List.foldl_nil]
    have : ∀ e ∈ A, rewriteFn [] e = e := by
      intro e _
      unfold rewriteFn
      rfl
    rw [List.map_congr_left this, List.map_id']
  | cons kv pairs ih =>
    intro A hA hp hsub
    simp only [List.map_cons, List.nodup_cons] at hp
    have hk : kv.1 ∈ A.map (·.1) := hsub kv.1 (by simp)
    simp only [List.foldl_cons]
    rw [dinsert_eq_map kv.2 hA hk]
    have hA' : ((A.map (fun e => if e.1 = kv.1 then (kv.1, kv.2) else e)).map (·.1)).Nodup := by
      have : (A.map (fun e => if e.1 = kv.1 then (kv.1, kv.2) else e)).map (·.1) =
          A.map (·.1) := by
        rw [List.map_map]
        refine List.map_congr_left ?_
        intro e _
        by_cases he : e.1 = kv.1 <;> simp [he]
      rw [this]
      exact hA
    have hsub' : ∀ k ∈ pairs.map (·.1),
        k ∈ (A.map (fun e => if e.1 = kv.1 then (kv.1, kv.2) else e)).map (·.1) := by
      intro k hk'
      have : (A.map (fun e => if e.1 = kv.1 then (kv.1, kv.2) else e)).map (·.1) =
          A.map (·.1) := by
        rw [List.map_map]
        refine List.map_congr_left ?_
        intro e _
        by_cases he : e.1 = kv.1 <;> simp [he]
      rw [this]
      exact hsub k (List.mem_cons_of_mem _ hk')
    rw [ih _ hA' hp.2 hsub', List.map_map]
    refine List.map_congr_left ?_
    intro e _
    simp only [Function.comp]
    by_cases he : e.1 = kv.1
    · have h1 : (if e.1 = kv.1 then (kv.1, kv.2) else e) = (kv.1, kv.2) := if_pos he
      rw [h1]
      unfold rewriteFn
      dsimp only
      rw [(dlookup_eq_none kv.1 pairs).mpr hp.1]
      have h3 : dlookup e.1 (kv :: pairs) = some kv.2 := by
        simp only [dlookup, if_pos he.symm]
      rw [h3, he]
    · have h1 : (if e.1 = kv.1 then (kv.1, kv.2) else e) = e := if_neg he
      rw [h1]
      unfold rewriteFn
      have h3 : dlookup e.1 (kv :: pairs) = dlookup e.1 pairs := by
        simp only [dlookup, if_neg (Ne.symm he)]
      rw [h3]

/-! ### Values multiset preservation under in-place rewriting -/

theorem map_rewriteFn_values_perm {K : Type} [DecidableEq K]
    (pairs B : List (K × String))
    (hB : (B.map (·.1)).Nodup) (hp : (pairs.map (·.1)).Nodup)
    (hsub : ∀ k ∈ pairs.map (·.1), k ∈ B.map (·.1))
    (hvals : pairs.map (·.2) ~ pairs.map (fun p => (dlookup p.1 B).getD "")) :
    (B.map (rewriteFn pairs)).map (·.2) ~ B.map (·.2) := by
  classical
  set inP : (K × String) → Bool := fun e => (dlookup e.1 pairs).isSome with hinP
  have hsplit : B.filter inP ++ B.filter (fun e => !(inP e)) ~ B :=
    List.filter_append_perm inP B
  -- keys of the touched entries enumerate the written keys
  have hkeysnd : ((B.filter inP).map (·.1)).Nodup :=
    (List.filter_sublist B).map (·.1) |>.nodup hB
  have hkeysperm : (B.filter inP).map (·.1) ~ pairs.map (·.1) := by
    refine (List.perm_ext_iff_of_nodup hkeysnd hp).mpr ?_
    intro k
    constructor
    · intro hk
      rcases List.mem_map.mp hk with ⟨e, he, rfl⟩
      have := List.of_mem_filter he
      rw [hinP] at this
      simp only [Option.isSome_iff_ne_none, ne_eq] at this
      rcases Option.ne_none_iff_exists.mp this with ⟨v, hv⟩
      exact (dlookup_isSome _ _).mp (by rw [← hv]; rfl)
    · intro hk
      have hkB : k ∈ B.map (·.1) := hsub k hk
      rcases List.mem_map.mp hkB with ⟨e, he, rfl⟩
      refine List.mem_map_of_mem (·.1) (List.mem_filter.mpr ⟨he, ?_⟩)
      rw [hinP]
      simp only
      exact (dlookup_isSome _ _).mpr hk
  have hmapval : (B.map (rewriteFn pairs)).map (·.2) = B.map (fun e => (rewriteFn pairs e).2) := by
    rw [List.map_map]
    rfl
  rw [hmapval]
  -- split both sides along touched/untouched entries
  have hsplitG := hsplit.map (fun e => (rewriteFn pairs e).2)
  have hsplitV := hsplit.map (fun e : K × String => e.2)
  rw [List.map_append] at hsplitG hsplitV
  refine hsplitG.symm.trans (Perm.trans ?_ hsplitV)
  refine List.Perm.append ?_ ?_
  · -- touched entries: new values are a permutation of the old values
    have h1 : (B.filter inP).map (fun e => (rewriteFn pairs e).2) =
        ((B.filter inP).map (·.1)).map (fun k => (dlookup k pairs).getD "") := by
      rw [List.map_map]
      refine List.map_congr_left ?_
      intro e he
      have hin := List.of_mem_filter he
      rw [hinP] at hin
      simp only at hin
      simp only [Function.comp]
      unfold rewriteFn
      cases hv : dlookup e.1 pairs with
      | none =>
        rw [hv] at hin
        simp at hin
      | some v => rfl
    have h2 : (B.filter inP).map (fun e : K × String => e.2) =
        ((B.filter inP).map (·.1)).map (fun k => (dlookup k B).getD "") := by
      rw [List.map_map]
      refine List.map_congr_left ?_
      intro e he
      simp only [Function.comp]
      rw [dlookup_self_of_nodup hB (List.mem_of_mem_filter he)]
      rfl
    have h3 : (pairs.map (·.1)).map (fun k => (dlookup k pairs).getD "") =
        pairs.map (·.2) := by
      rw [List.map_map]
      refine List.map_congr_left ?_
      intro p hp'
      simp only [Function.comp]
      rw [dlookup_self_of_nodup hp hp']
      rfl
    have h4 : (pairs.map (·.1)).map (fun k => (dlookup k B).getD "") =
        pairs.map (fun p => (dlookup p.1 B).getD "") := by
      rw [List.map_map]
      rfl
    calc (B.filter inP).map (fun e => (rewriteFn pairs e).2)
        = ((B.filter inP).map (·.1)).map (fun k => (dlookup k pairs).getD "") := h1
      _ ~ (pairs.map (·.1)).map (fun k => (dlookup k pairs).getD "") := hkeysperm.map _
      _ = pairs.map (·.2) := h3
      _ ~ pairs.map (fun p => (dlookup p.1 B).getD "") := hvals
      _ = (pairs.map (·.1)).map (fun k => (dlookup k B).getD "") := h4.symm
      _ ~ ((B.filter inP).map (·.1)).map (fun k => (dlookup k B).getD "") :=
          (hkeysperm.symm).map _
      _ = (B.filter inP).map (fun e : K × String => e.2) := h2.symm
  · -- untouched entries keep their values
    have : ∀ e ∈ B.filter (fun e => !(inP e)),
        (rewriteFn pairs e).2 = e.2 := by
      intro e he
      have hout := List.of_mem_filter he
      rw [hinP] at hout
      simp only [Bool.not_eq_true'] at hout
      unfold rewriteFn
      cases hv : dlookup e.1 pairs with
      | none => rfl
      | some v =>
        rw [hv] at hout
        simp at hout
    rw [List.map_congr_left this]

/-! ### Auxiliary lemmas for the reshuffle pass -/

theorem filterMap_dlookup_all_some {K V : Type} [DecidableEq K]
    (A : List (K × V)) :
    ∀ (nf : List K), (nf.filterMap (fun q => dlookup q A)).length = nf.length →
      ∀ q ∈ nf, (dlookup q A).isSome = true := by
  intro nf
  induction nf with
  | nil => intro _ q hq; cases hq
  | cons q0 nf ih =>
    intro hlen q hq
    cases hv : dlookup q0 A with
    | none =>
      exfalso
      rw [List.filterMap_cons, hv] at hlen
      have := List.length_filterMap_le (fun q => dlookup q A) nf
      simp only [List.length_cons] at hlen
      omega
    | some v =>
      rw [List.filterMap_cons, hv] at hlen
      simp only [List.length_cons] at hlen
      rcases List.mem_cons.mp hq with rfl | hq'
      · rw [hv]; rfl
      · exact ih (by omega) q hq'

theorem filterMap_dlookup_eq_map {K V : Type} [DecidableEq K] [Inhabited V]
    (A : List (K × V)) (nf : List K)
    (h : ∀ q ∈ nf, (dlookup q A).isSome = true) :
    nf.filterMap (fun q => dlookup q A) = nf.map (fun q => (dlookup q A).getD default) := by
  induction nf with
  | nil => rfl
  | cons q0 nf ih =>
    have h0 := h q0 (List.mem_cons_self _ _)
    cases hv : dlookup q0 A with
    | none => rw [hv] at h0; cases h0
    | some v =>
      rw [List.filterMap_cons, List.map_cons, hv, ih (fun q hq => h q (List.mem_cons_of_mem _ hq))]
      rfl

theorem dlookup_filter_gid {q : String × String} (gid : String)
    (A : List ((String × String) × String)) (hq : q.1 = gid) :
    dlookup q (A.filter (fun e => decide (e.1.1 = gid))) = dlookup q A := by
  induction A with
  | nil => rfl
  | cons e rest ih =>
    by_cases he : e.1 = q
    · have hkeep : decide (e.1.1 = gid) = true := by
        rw [he, hq]
        simp
      simp only [List.filter_cons, hkeep, if_pos rfl]
      simp only [dlookup, if_pos he]
    · by_cases hk : e.1.1 = gid
      · have hkeep : decide (e.1.1 = gid) = true := by simp [hk]
        simp only [List.filter_cons, hkeep]
        simp only [dlookup, if_neg he, ih]
      · have hdrop : decide (e.1.1 = gid) = false := by simp [hk]
        simp only [List.filter_cons, hdrop]
        rw [if_neg Bool.false_ne_true, ih]
        simp only [dlookup, if_neg he]

theorem bucketScore_congr_perm (competitors : List (String × Competitor))
    {ids ids' : List String} (h : ids ~ ids') :
    bucketScore competitors ids = bucketScore competitors ids' := by
  unfold bucketScore
  rw [country_counts_eq, country_counts_eq, dcount_shape, dcount_shape,
    List.map_map, List.map_map]
  have hcl : ids.map (countryOf competitors) ~ ids'.map (countryOf competitors) :=
    h.map _
  have hcnt : ∀ k, (ids'.map (countryOf competitors)).count k =
      (ids.map (countryOf competitors)).count k := fun k => (hcl.count_eq k).symm
  have hfo : firstOccur (ids.map (countryOf competitors)) ~
      firstOccur (ids'.map (countryOf competitors)) := by
    refine (perm_ext_iff_of_nodup (nodup_firstOccur _) (nodup_firstOccur _)).mpr ?_
    intro a
    rw [mem_firstOccur, mem_firstOccur]
    exact hcl.mem_iff
  have hright : ((firstOccur (ids'.map (countryOf competitors))).map
      ((fun cn : String × Nat => if cn.2 > 1 then pairsOf cn.2 else 0) ∘
        (fun k => (k, (ids'.map (countryOf competitors)).count k)))).sum =
      ((firstOccur (ids'.map (countryOf competitors))).map
      ((fun cn : String × Nat => if cn.2 > 1 then pairsOf cn.2 else 0) ∘
        (fun k => (k, (ids.map (countryOf competitors)).count k)))).sum := by
    refine congrArg List.sum (List.map_congr_left ?_)
    intro k _
    simp only [Function.comp, hcnt k]
  rw [hright]
  exact (hfo.map _).sum_eq

theorem collisions_fst_congr (competitors : List (String × Competitor))
    (G : List (String × Group)) (A A' : List ((String × String) × String))
    (hkeys : A'.map (·.1) = A.map (·.1))
    (hmem : ∀ gid, groupMembers gid A' ~ groupMembers gid A) :
    (calculate_collisions A' competitors G).1 = (calculate_collisions A competitors G).1 := by
  rw [calculate_collisions_fst, calculate_collisions_fst]
  have hgids : gidsOf A' = gidsOf A := by
    unfold gidsOf
    have h1 : A'.map (·.1.1) = (A'.map (·.1)).map (·.1) := by
      rw [List.map_map]
      exact List.map_congr_left (fun e _ => rfl)
    have h2 : A.map (·.1.1) = (A.map (·.1)).map (·.1) := by
      rw [List.map_map]
      exact List.map_congr_left (fun e _ => rfl)
    rw [h1, h2, hkeys]
  rw [hgids]
  refine congrArg List.sum (List.map_congr_left ?_)
  intro gid _
  exact bucketScore_congr_perm competitors (hmem gid)

/-! ### The reshuffle step for one group -/

theorem shuffleGroupSeats_spec (fixedSet : List (String × String))
    (A : List ((String × String) × String)) (rng : List Nat) (gg : String × Group)
    (hA : (A.map (·.1)).Nodup) (hpos : gg.2.positions.Nodup) :
    ((shuffleGroupSeats fixedSet (A, rng) gg).1.map (·.1) = A.map (·.1)) ∧
    (∀ gid, groupMembers gid (shuffleGroupSeats fixedSet (A, rng) gg).1 ~
      groupMembers gid A) ∧
    (∀ q, q ∈ fixedSet →
      dlookup q (shuffleGroupSeats fixedSet (A, rng) gg).1 = dlookup q A) ∧
    ((shuffleGroupSeats fixedSet (A, rng) gg).1.map (·.2) ~ A.map (·.2)) := by
  classical
  unfold shuffleGroupSeats
  set nonFixed := ((gg.2.positions.map (fun p => (gg.1, p))).filter
    (fun q => ¬ (q ∈ fixedSet))) with hnf
  by_cases hempty : nonFixed.isEmpty
  · simp only [hempty, if_pos rfl]
    exact ⟨rfl, fun _ => Perm.refl _, fun _ _ => rfl, Perm.refl _⟩
  · simp only [hempty, Bool.false_eq_true, if_false]
    set compsAt := nonFixed.filterMap (fun q => dlookup q A) with hca
    by_cases hlen : compsAt.length = nonFixed.length
    · rw [if_pos hlen]
      rcases hsh : rshuffle compsAt rng with ⟨shuffled, rng'⟩
      have hshperm : shuffled ~ compsAt := by
        have := rshuffle_perm compsAt rng
        rw [hsh] at this
        exact this
      have hshlen : shuffled.length = nonFixed.length := by
        rw [hshperm.length_eq, hlen]
      -- facts about nonFixed
      have hnfmem : ∀ q ∈ nonFixed, q.1 = gg.1 := by
        intro q hq
        rw [hnf] at hq
        rcases List.mem_map.mp (List.mem_of_mem_filter hq) with ⟨p, _, rfl⟩
        rfl
      have hnfnodup : nonFixed.Nodup := by
        rw [hnf]
        refine List.Nodup.filter _ ?_
        exact hpos.map (fun p p' h => by injection h)
      have hnffix : ∀ q ∈ nonFixed, q ∉ fixedSet := by
        intro q hq
        rw [hnf] at hq
        have := List.of_mem_filter hq
        simpa using this
      have hallsome : ∀ q ∈ nonFixed, (dlookup q A).isSome = true :=
        filterMap_dlookup_all_some A nonFixed (by rw [← hca, hlen])
      -- the written pairs
      set pairs := nonFixed.zip shuffled with hpairs
      have hpk : pairs.map (·.1) = nonFixed := by
        rw [hpairs]
        exact List.map_fst_zip nonFixed shuffled (by omega)
      have hpv : pairs.map (·.2) = shuffled := by
        rw [hpairs]
        exact List.map_snd_zip nonFixed shuffled (by omega)
      have hpknd : (pairs.map (·.1)).Nodup := by rw [hpk]; exact hnfnodup
      have hpsub : ∀ k ∈ pairs.map (·.1), k ∈ A.map (·.1) := by
        intro k hk
        rw [hpk] at hk
        exact (dlookup_isSome _ _).mp (hallsome k hk)
      have hfold : pairs.foldl (fun a qc => dinsert qc.1 qc.2 a) A =
          A.map (rewriteFn pairs) :=
        foldl_dinsert_eq_map pairs A hA hpknd hpsub
      have hcompsmap : compsAt = nonFixed.map (fun q => (dlookup q A).getD "") := by
        rw [hca]
        have := filterMap_dlookup_eq_map A nonFixed hallsome
        simpa using this
      have hvalsA : pairs.map (·.2) ~ pairs.map (fun p => (dlookup p.1 A).getD "") := by
        rw [hpv]
        have h1 : pairs.map (fun p => (dlookup p.1 A).getD "") =
            (pairs.map (·.1)).map (fun q => (dlookup q A).getD "") := by
          rw [List.map_map]
          rfl
        rw [h1, hpk, ← hcompsmap]
        exact hshperm
      refine ⟨?_, ?_, ?_, ?_⟩
      · rw [hfold]
        exact keys_map_rewriteFn pairs A
      · intro gid
        rw [hfold]
        unfold groupMembers
        have hfiltcomm : (A.map (rewriteFn pairs)).filter (fun e => decide (e.1.1 = gid)) =
            (A.filter (fun e => decide (e.1.1 = gid))).map (rewriteFn pairs) := by
          rw [List.filter_map]
          congr 1
          refine List.filter_congr ?_
          intro e _
          simp [Function.comp, rewriteFn_fst]
        rw [hfiltcomm]
        by_cases hgid : gid = gg.1
        · subst hgid
          set B := A.filter (fun e => decide (e.1.1 = gg.1)) with hB
          have hBnd : (B.map (·.1)).Nodup := ((List.filter_sublist A).map (·.1)).nodup hA
          have hBsub : ∀ k ∈ pairs.map (·.1), k ∈ B.map (·.1) := by
            intro k hk
            rw [hpk] at hk
            have hlook : dlookup k B = dlookup k A := by
              rw [hB]
              exact dlookup_filter_gid gg.1 A (hnfmem k hk)
            have : (dlookup k B).isSome = true := by
              rw [hlook]
              exact hallsome k hk
            exact (dlookup_isSome _ _).mp this
          have hvalsB : pairs.map (·.2) ~ pairs.map (fun p => (dlookup p.1 B).getD "") := by
            have heq : pairs.map (fun p => (dlookup p.1 B).getD "") =
                pairs.map (fun p => (dlookup p.1 A).getD "") := by
              refine List.map_congr_left ?_
              intro p hp
              have hp1 : p.1 ∈ nonFixed := by
                rw [← hpk]
                exact List.mem_map_of_mem (·.1) hp
              rw [hB, dlookup_filter_gid gg.1 A (hnfmem p.1 hp1)]
            rw [heq]
            exact hvalsA
          exact map_rewriteFn_values_perm pairs B hBnd hpknd hBsub hvalsB
        · have hid : ∀ e ∈ A.filter (fun e => decide (e.1.1 = gid)),
              rewriteFn pairs e = e := by
            intro e he
            have hkey : e.1.1 = gid := by
              have := List.of_mem_filter he
              simpa using this
            have hnot : dlookup e.1 pairs = none := by
              rw [dlookup_eq_none, hpk]
              intro hmem
              exact hgid (hkey ▸ hnfmem e.1 hmem)
            unfold rewriteFn
            rw [hnot]
          rw [List.map_congr_left hid, List.map_id']
      · intro q hqfix
        rw [hfold]
        refine dlookup_map_rewriteFn_none pairs A ?_
        rw [dlookup_eq_none, hpk]
        intro hmem
        exact hnffix q hmem hqfix
      · rw [hfold]
        exact map_rewriteFn_values_perm pairs A hA hpknd hpsub hvalsA
    · rw [if_neg hlen]
      exact ⟨rfl, fun _ => Perm.refl _, fun _ _ => rfl, Perm.refl _⟩

/-! ### The full reshuffle pass -/

theorem shuffleSeats_foldl_spec (fixedSet : List (String × String)) :
    ∀ (gs : List (String × Group)) (A : List ((String × String) × String))
      (rng : List Nat), ((A.map (·.1)).Nodup) →
      (∀ gg ∈ gs, gg.2.positions.Nodup) →
      ((gs.foldl (shuffleGroupSeats fixedSet) (A, rng)).1.map (·.1) = A.map (·.1)) ∧
      (∀ gid, groupMembers gid (gs.foldl (shuffleGroupSeats fixedSet) (A, rng)).1 ~
        groupMembers gid A) ∧
      (∀ q, q ∈ fixedSet →
        dlookup q (gs.foldl (shuffleGroupSeats fixedSet) (A, rng)).1 = dlookup q A) ∧
      ((gs.foldl (shuffleGroupSeats fixedSet) (A, rng)).1.map (·.2) ~ A.map (·.2)) := by
  intro gs
  induction gs with
  | nil =>
    intro A rng hA _
    exact ⟨rfl, fun _ => Perm.refl _, fun _ _ => rfl, Perm.refl _⟩
  | cons gg gs ih =>
    intro A rng hA hpos
    obtain ⟨h1, h2, h3, h4⟩ := shuffleGroupSeats_spec fixedSet A rng gg hA
      (hpos gg (List.mem_cons_self _ _))
    have hA1 : ((shuffleGroupSeats fixedSet (A, rng) gg).1.map (·.1)).Nodup := by
      rw [h1]
      exact hA
    obtain ⟨g1, g2, g3, g4⟩ := ih (shuffleGroupSeats fixedSet (A, rng) gg).1
      (shuffleGroupSeats fixedSet (A, rng) gg).2 hA1
      (fun x hx => hpos x (List.mem_cons_of_mem _ hx))
    refine ⟨?_, ?_, ?_, ?_⟩
    · rw [List.foldl_cons]
      exact g1.trans h1
    · intro gid
      rw [List.foldl_cons]
      exact (g2 gid).trans (h2 gid)
    · intro q hq
      rw [List.foldl_cons]
      exact (g3 q hq).trans (h3 q hq)
    · rw [List.foldl_cons]
      exact g4.trans h4

/-- C8: the post-placement local reshuffle permutes competitors only among
the non-fixed seats of each single group: the seat set (the assignment's
keys) is unchanged, every pinned seat keeps its occupant, each group keeps
the same multiset of competitors — no competitor changes group — and the
collision count of the assignment is identical before and after. -/
theorem claim_reshuffle_invariant (competitors : List (String × Competitor))
    (fixed_positions : List (String × (String × String)))
    (groupsState : List (String × Group)) (A : List ((String × String) × String))
    (rng : List Nat)
    (hA : (A.map (·.1)).Nodup)
    (hpos : ∀ gg ∈ groupsState, gg.2.positions.Nodup) :
    ((shuffleSeats fixed_positions groupsState A rng).1.map (·.1) = A.map (·.1)) ∧
    (∀ gid, groupMembers gid (shuffleSeats fixed_positions groupsState A rng).1 ~
      groupMembers gid A) ∧
    (∀ q ∈ fixedPositionSet fixed_positions,
      dlookup q (shuffleSeats fixed_positions groupsState A rng).1 = dlookup q A) ∧
    (calculate_collisions (shuffleSeats fixed_positions groupsState A rng).1
        competitors groupsState).1 =
      (calculate_collisions A competitors groupsState).1 := by
  obtain ⟨h1, h2, h3, _⟩ := shuffleSeats_foldl_spec (fixedPositionSet fixed_positions)
    groupsState A rng hA hpos
  exact ⟨h1, h2, h3, collisions_fst_congr competitors groupsState A _ h1 h2⟩

/-- Witness for C8 at a concrete assignment with one pin and a nontrivial
random stream. -/
theorem claim_reshuffle_invariant_witness :
    ((exAssignment.map (·.1)).Nodup) ∧
    (∀ gg ∈ exGroups, gg.2.positions.Nodup) ∧
    (calculate_collisions (shuffleSeats exPinOne exGroups exAssignment [1, 2, 3]).1
        exCompetitors exGroups).1 =
      (calculate_collisions exAssignment exCompetitors exGroups).1 :=
  ⟨by decide, by decide,
   (claim_reshuffle_invariant exCompetitors exPinOne exGroups exAssignment [1, 2, 3]
     (by decide) (by decide)).2.2.2⟩

/-! ### Structural lemmas for the placement invariant -/

theorem positionsFor_length {cap : Nat} (h : cap = 3 ∨ cap = 4) :
    (positionsFor cap).length = cap := by
  rcases h with rfl | rfl <;> rfl

theorem positionsFor_nodup (cap : Nat) : (positionsFor cap).Nodup := by
  have h4 : (["a", "b", "c", "d"] : List String).Nodup := by decide
  exact h4.sublist (List.take_sublist _ _)

theorem GroupsShape.keys {groups0 G : List (String × Group)} (h : GroupsShape groups0 G) :
    G.map (·.1) = groups0.map (·.1) := by
  have h1 : G.map (·.1) = (G.map (fun gg => (gg.1, gg.2.positions))).map (·.1) := by
    rw [List.map_map]
    exact List.map_congr_left (fun e _ => rfl)
  have h2 : groups0.map (·.1) =
      (groups0.map (fun gg => (gg.1, gg.2.positions))).map (·.1) := by
    rw [List.map_map]
    exact List.map_congr_left (fun e _ => rfl)
  rw [h1, h2, h]

theorem GroupsShape.dlookup_positions {groups0 G : List (String × Group)}
    (h : GroupsShape groups0 G) (gid : String) :
    (dlookup gid G).map (fun g => g.positions) =
      (dlookup gid groups0).map (fun g => g.positions) := by
  induction G generalizing groups0 with
  | nil =>
    unfold GroupsShape at h
    have : groups0 = [] := by
      cases groups0 with
      | nil => rfl
      | cons _ _ => cases h
    rw [this]
  | cons gg G ih =>
    cases groups0 with
    | nil => cases h
    | cons g0 rest0 =>
      unfold GroupsShape at h
      simp only [List.map_cons, List.cons.injEq, Prod.mk.injEq] at h
      obtain ⟨⟨hk, hpos⟩, htail⟩ := h
      by_cases hgid : gg.1 = gid
      · simp only [dlookup, if_pos hgid, if_pos (hk ▸ hgid), Option.map_some', hpos]
      · simp only [dlookup, if_neg hgid, if_neg (hk ▸ hgid)]
        exact ih htail

theorem GroupsShape.refl (G : List (String × Group)) : GroupsShape G G := Eq.refl _

/-! ### assignSeat lemmas -/

theorem dlookup_assignSeat_self (gid pos comp : String) (G : List (String × Group)) :
    dlookup gid (assignSeat gid pos comp G) =
      (dlookup gid G).map (fun g =>
        { g with assigned_positions := dinsert pos comp g.assigned_positions }) := by
  induction G with
  | nil => rfl
  | cons gg G ih =>
    by_cases hk : gg.1 = gid
    · simp only [assignSeat, List.map_cons, if_pos hk, dlookup, Option.map_some']
    · simp only [assignSeat, List.map_cons, if_neg hk, dlookup, if_neg hk]
      exact ih

theorem dlookup_assignSeat_ne {gid' gid : String} (pos comp : String)
    (G : List (String × Group)) (h : gid' ≠ gid) :
    dlookup gid' (assignSeat gid pos comp G) = dlookup gid' G := by
  induction G with
  | nil => rfl
  | cons gg G ih =>
    by_cases hk : gg.1 = gid
    · have hne : gg.1 ≠ gid' := fun hh => h ((hh ▸ hk : gid' = gid))
      simp only [assignSeat, List.map_cons, if_pos hk, dlookup, if_neg hne] at *
      exact ih
    · by_cases hk' : gg.1 = gid'
      · simp only [assignSeat, List.map_cons, if_neg hk, dlookup, if_pos hk']
      · simp only [assignSeat, List.map_cons, if_neg hk, dlookup, if_neg hk'] at *
        exact ih

theorem assignSeat_shape {groups0 G : List (String × Group)} (gid pos comp : String)
    (h : GroupsShape groups0 G) : GroupsShape groups0 (assignSeat gid pos comp G) := by
  unfold GroupsShape at *
  rw [← h]
  unfold assignSeat
  rw [List.map_map]
  refine List.map_congr_left ?_
  intro gg _
  by_cases hk : gg.1 = gid <;> simp [hk]

theorem assignSeat_of_not_mem {gid : String} (pos comp : String)
    (G : List (String × Group)) (h : gid ∉ G.map (·.1)) :
    assignSeat gid pos comp G = G := by
  induction G with
  | nil => rfl
  | cons gg G ih =>
    have h1 : gg.1 ≠ gid := by
      intro hh
      exact h (hh ▸ List.mem_map_of_mem (fun x : String × Group => x.1)
        (List.mem_cons_self gg G))
    have h2 : gid ∉ G.map (·.1) := fun hh => h (List.mem_cons_of_mem _ hh)
    simp only [assignSeat, List.map_cons, if_neg h1]
    rw [show G.map (fun gg => if gg.1 = gid then
      (gg.1, { gg.2 with assigned_positions := dinsert pos comp gg.2.assigned_positions })
      else gg) = assignSeat gid pos comp G from rfl, ih h2]

theorem occCount_assignSeat {gid pos comp : String} {G : List (String × Group)} {g : Group}
    (hnd : (G.map (·.1)).Nodup) (hg : dlookup gid G = some g)
    (hfresh : dlookup pos g.assigned_positions = none) :
    occCount (assignSeat gid pos comp G) = occCount G + 1 := by
  induction G with
  | nil => cases hg
  | cons gg G ih =>
    simp only [List.map_cons, List.nodup_cons] at hnd
    by_cases hk : gg.1 = gid
    · rw [dlookup, if_pos hk] at hg
      injection hg with hg
      subst hg
      have hrest : assignSeat gid pos comp G = G :=
        assignSeat_of_not_mem pos comp G (hk ▸ hnd.1)
      simp only [assignSeat, List.map_cons, if_pos hk]
      rw [show G.map (fun gg => if gg.1 = gid then
        (gg.1, { gg.2 with assigned_positions := dinsert pos comp gg.2.assigned_positions })
        else gg) = assignSeat gid pos comp G from rfl, hrest]
      unfold occCount
      simp only [List.map_cons, List.sum_cons]
      rw [dinsert_of_fresh comp hfresh, List.length_append]
      simp [Nat.add_comm, Nat.add_assoc, Nat.add_left_comm]
    · rw [dlookup, if_neg hk] at hg
      simp only [assignSeat, List.map_cons, if_neg hk]
      rw [show G.map (fun gg => if gg.1 = gid then
        (gg.1, { gg.2 with assigned_positions := dinsert pos comp gg.2.assigned_positions })
        else gg) = assignSeat gid pos comp G from rfl]
      unfold occCount at *
      simp only [List.map_cons, List.sum_cons]
      rw [ih hnd.2 hg]
      omega

/-! ### Seat counting -/

theorem availablePositions_add (g : Group) (hp : g.positions.Nodup)
    (hnd : (g.assigned_positions.map (·.1)).Nodup)
    (hsub : ∀ p ∈ g.assigned_positions.map (·.1), p ∈ g.positions) :
    (availablePositions g).length + g.assigned_positions.length = g.positions.length := by
  unfold availablePositions
  have hsplit := List.filter_append_perm (fun p => dmem p g.assigned_positions) g.positions
  have hlen := hsplit.length_eq
  rw [List.length_append] at hlen
  have hocc : (g.positions.filter (fun p => dmem p g.assigned_positions)).length =
      g.assigned_positions.length := by
    have hperm : g.positions.filter (fun p => dmem p g.assigned_positions) ~
        g.assigned_positions.map (·.1) := by
      refine (perm_ext_iff_of_nodup (hp.filter _) hnd).mpr ?_
      intro p
      rw [List.mem_filter]
      constructor
      · rintro ⟨_, hm⟩
        exact (dlookup_isSome _ _).mp hm
      · intro hm
        exact ⟨hsub p hm, (dlookup_isSome _ _).mpr hm⟩
    rw [hperm.length_eq, List.length_map]
  have hpred : g.positions.filter (fun p => ¬ (dmem p g.assigned_positions)) =
      g.positions.filter (fun p => !(dmem p g.assigned_positions)) := by
    refine List.filter_congr ?_
    intro p _
    cases dmem p g.assigned_positions <;> rfl
  rw [hpred]
  omega

theorem openCount_add_occCount (G : List (String × Group)) (hOcc : GroupsOcc G)
    (hposn : ∀ gg ∈ G, gg.2.positions.Nodup) :
    openCount G + occCount G = totalPos G := by
  induction G with
  | nil => rfl
  | cons gg G ih =>
    have hg := hOcc gg (List.mem_cons_self _ _)
    have hadd := availablePositions_add gg.2 (hposn gg (List.mem_cons_self _ _)) hg.1 hg.2
    have hrec := ih (fun x hx => hOcc x (List.mem_cons_of_mem _ hx))
      (fun x hx => hposn x (List.mem_cons_of_mem _ hx))
    unfold openCount occCount totalPos at *
    simp only [List.map_cons, List.sum_cons]
    omega

/-! ### The best-group scan finds an open group when one exists -/

theorem bestGroupStep_foldl_nonempty (counts : String → String → Nat) (country : String) :
    ∀ (l : List (String × Group)) (acc : Option Nat × List String),
      (acc.1.isSome = true ↔ acc.2 ≠ []) →
      ((l.foldl (bestGroupStep counts country) acc).1.isSome = true ↔
        (l.foldl (bestGroupStep counts country) acc).2 ≠ []) ∧
      ((∃ gg ∈ l, (availablePositions gg.2).length > 0) ∨ acc.2 ≠ [] →
        (l.foldl (bestGroupStep counts country) acc).2 ≠ []) := by
  intro l
  induction l with
  | nil =>
    intro acc hq
    refine ⟨hq, ?_⟩
    rintro (⟨gg, hgg, _⟩ | h)
    · cases hgg
    · exact h
  | cons gg l ih =>
    intro acc hq
    rw [List.foldl_cons]
    have hstep : ((bestGroupStep counts country acc gg).1.isSome = true ↔
        (bestGroupStep counts country acc gg).2 ≠ []) ∧
        (((availablePositions gg.2).length > 0 ∨ acc.2 ≠ []) →
          (bestGroupStep counts country acc gg).2 ≠ []) := by
      unfold bestGroupStep
      by_cases ha : (availablePositions gg.2).length > 0
      · rw [if_pos ha]
        cases hacc : acc.1 with
        | none =>
          constructor
          · simp
          · intro _
            simp
        | some m =>
          have hne : acc.2 ≠ [] := hq.mp (by rw [hacc]; rfl)
          by_cases h1 : counts country gg.1 < m
          · constructor
            · simp [h1]
            · intro _
              simp [h1]
          · by_cases h2 : counts country gg.1 = m
            · constructor
              · simp [h1, h2]
              · intro _
                simp [h1, h2]
            · constructor
              · simp only [h1, h2, if_false]
                exact hq
              · intro _
                simp only [h1, h2, if_false]
                exact hne
      · rw [if_neg ha]
        refine ⟨hq, ?_⟩
        rintro (h | h)
        · exact absurd h ha
        · exact hq.mp (hq.mpr h)
    obtain ⟨iha, ihb⟩ := ih (bestGroupStep counts country acc gg) hstep.1
    refine ⟨iha, ?_⟩
    rintro (⟨x, hx, hav⟩ | h)
    · rcases List.mem_cons.mp hx with rfl | hx'
      · exact ihb (Or.inr (hstep.2 (Or.inl hav)))
      · exact ihb (Or.inl ⟨x, hx', hav⟩)
    · exact ihb (Or.inr (hstep.2 (Or.inr h)))

theorem findBestGroups_nonempty (counts : String → String → Nat) (country : String)
    (G : List (String × Group)) (h : openCount G > 0) :
    findBestGroups counts country G ≠ [] := by
  have hex : ∃ gg ∈ G, (availablePositions gg.2).length > 0 := by
    by_contra hno
    push_neg at hno
    have hzero : openCount G = 0 := by
      unfold openCount
      refine List.sum_eq_zero ?_
      intro x hx
      rcases List.mem_map.mp hx with ⟨gg, hgg, rfl⟩
      have := hno gg hgg
      omega
    omega
  unfold findBestGroups
  exact (bestGroupStep_foldl_nonempty counts country G (none, [])
    (by constructor <;> intro h' <;> simp at h')).2 (Or.inl hex)

theorem bestGroupStep_foldl_mem (counts : String → String → Nat) (country : String)
    (G : List (String × Group)) (hnd : (G.map (·.1)).Nodup) :
    ∀ (l : List (String × Group)) (acc : Option Nat × List String),
      (∀ gg ∈ l, gg ∈ G) →
      (∀ x ∈ acc.2, ∃ g, dlookup x G = some g ∧ (availablePositions g).length > 0) →
      ∀ x ∈ (l.foldl (bestGroupStep counts country) acc).2,
        ∃ g, dlookup x G = some g ∧ (availablePositions g).length > 0 := by
  intro l
  induction l with
  | nil =>
    intro acc _ hacc x hx
    exact hacc x hx
  | cons gg l ih =>
    intro acc hsub hacc
    rw [List.foldl_cons]
    refine ih (bestGroupStep counts country acc gg)
      (fun x hx => hsub x (List.mem_cons_of_mem _ hx)) ?_
    intro x hx
    have hstep : (bestGroupStep counts country acc gg).2 = acc.2 ∨
        ((bestGroupStep counts country acc gg).2 = [gg.1] ∧
          (availablePositions gg.2).length > 0) ∨
        ((bestGroupStep counts country acc gg).2 = acc.2 ++ [gg.1] ∧
          (availablePositions gg.2).length > 0) := by
      unfold bestGroupStep
      by_cases ha : (availablePositions gg.2).length > 0
      · rw [if_pos ha]
        cases acc.1 with
        | none => right; left; exact ⟨rfl, ha⟩
        | some m =>
          by_cases h1 : counts country gg.1 < m
          · right; left; exact ⟨by simp [h1], ha⟩
          · by_cases h2 : counts country gg.1 = m
            · right; right; exact ⟨by simp [h1, h2], ha⟩
            · left; simp [h1, h2]
      · rw [if_neg ha]
        left; rfl
    have hgmem : (availablePositions gg.2).length > 0 →
        ∃ g, dlookup gg.1 G = some g ∧ (availablePositions g).length > 0 := by
      intro hav
      exact ⟨gg.2, dlookup_self_of_nodup hnd (hsub gg (List.mem_cons_self _ _)), hav⟩
    rcases hstep with heq | ⟨heq, hav⟩ | ⟨heq, hav⟩
    · rw [heq] at hx
      exact hacc x hx
    · rw [heq] at hx
      rcases List.mem_singleton.mp hx with rfl
      exact hgmem hav
    · rw [heq] at hx
      rcases List.mem_append.mp hx with hx' | hx'
      · exact hacc x hx'
      · rcases List.mem_singleton.mp hx' with rfl
        exact hgmem hav

theorem rchoice_fst_mem {α : Type} (l : List α) (d : α) (rng : List Nat) (h : l ≠ []) :
    (rchoice l d rng).1 ∈ l := by
  unfold rchoice
  dsimp only
  have hlen : 0 < l.length := List.length_pos.mpr h
  have hi : (draw rng).1 % l.length < l.length := Nat.mod_lt _ hlen
  rw [List.getD_eq_getElem l d hi]
  exact List.getElem_mem hi

/-- A successful placement step: when some group has an open seat,
`placeOne` commits the competitor to an open seat `pos` of an existing
group `gid`, updating the assignment, the group occupancy and the counter
exactly as lines 198-208 do. -/
theorem placeOne_step (country comp : String) (st : PState)
    (hndG : (st.groups.map (·.1)).Nodup)
    (hopen : openCount st.groups > 0) :
    ∃ gid pos g rng2,
      dlookup gid st.groups = some g ∧
      pos ∈ availablePositions g ∧
      placeOne country comp st =
        { assignment := dinsert (gid, pos) comp st.assignment,
          groups := assignSeat gid pos comp st.groups,
          counts := fun c g' =>
            if c = country ∧ g' = gid then st.counts c g' + 1 else st.counts c g',
          rng := rng2 } := by
  have hbg := findBestGroups_nonempty st.counts country st.groups hopen
  cases hfb : findBestGroups st.counts country st.groups with
  | nil => exact absurd hfb hbg
  | cons b bs =>
    have hgidmem : (rchoice (b :: bs) b st.rng).1 ∈ findBestGroups st.counts country st.groups := by
      rw [hfb]
      exact rchoice_fst_mem _ _ _ (by simp)
    obtain ⟨g, hg, hav⟩ := bestGroupStep_foldl_mem st.counts country st.groups hndG
      st.groups (none, []) (fun _ h => h) (fun x hx => absurd hx (by simp))
      _ hgidmem
    cases hap : availablePositions g with
    | nil =>
      rw [hap] at hav
      simp at hav
    | cons p ps =>
      refine ⟨(rchoice (b :: bs) b st.rng).1,
        (rchoice (p :: ps) p (rchoice (b :: bs) b st.rng).2).1, g,
        (rchoice (p :: ps) p (rchoice (b :: bs) b st.rng).2).2, hg, ?_, ?_⟩
      · rw [hap]
        exact rchoice_fst_mem _ _ _ (by simp)
      · unfold placeOne
        rw [hfb]
        dsimp only
        rw [hg]
        dsimp only
        rw [hap]

theorem availablePositions_lookup_none {g : Group} {pos : String}
    (h : pos ∈ availablePositions g) : dlookup pos g.assigned_positions = none := by
  unfold availablePositions at h
  have h2 := List.of_mem_filter h
  simp only [decide_eq_true_eq] at h2
  unfold dmem at h2
  cases hv : dlookup pos g.assigned_positions with
  | none => rfl
  | some v =>
    rw [hv] at h2
    simp at h2

theorem availablePositions_subset {g : Group} {pos : String}
    (h : pos ∈ availablePositions g) : pos ∈ g.positions :=
  List.mem_of_mem_filter h

theorem GroupsShape.positions_prop {groups0 G : List (String × Group)}
    (h : GroupsShape groups0 G) (P : List String → Prop)
    (h0 : ∀ gg ∈ groups0, P gg.2.positions) : ∀ gg ∈ G, P gg.2.positions := by
  intro gg hgg
  have hm : (gg.1, gg.2.positions) ∈ groups0.map (fun gg => (gg.1, gg.2.positions)) := by
    rw [← h]
    exact List.mem_map_of_mem _ hgg
  rcases List.mem_map.mp hm with ⟨gg0, hgg0, hpair⟩
  have : gg0.2.positions = gg.2.positions := congrArg Prod.snd hpair
  rw [← this]
  exact h0 gg0 hgg0

theorem GroupsShape.totalPos_eq {groups0 G : List (String × Group)}
    (h : GroupsShape groups0 G) : totalPos G = totalPos groups0 := by
  unfold totalPos
  have h1 : G.map (fun gg => gg.2.positions.length) =
      (G.map (fun gg => (gg.1, gg.2.positions))).map (fun x => x.2.length) := by
    rw [List.map_map]
    exact List.map_congr_left (fun e _ => rfl)
  have h2 : groups0.map (fun gg => gg.2.positions.length) =
      (groups0.map (fun gg => (gg.1, gg.2.positions))).map (fun x => x.2.length) := by
    rw [List.map_map]
    exact List.map_congr_left (fun e _ => rfl)
  rw [h1, h2, h]

theorem groupsOcc_assignSeat {G : List (String × Group)} {gid pos comp : String} {g : Group}
    (hndG : (G.map (·.1)).Nodup) (hOcc : GroupsOcc G)
    (hg : dlookup gid G = some g) (hpos : pos ∈ availablePositions g) :
    GroupsOcc (assignSeat gid pos comp G) := by
  intro gg' hgg'
  unfold assignSeat at hgg'
  rcases List.mem_map.mp hgg' with ⟨gg, hgg, rfl⟩
  by_cases hk : gg.1 = gid
  · rw [if_pos hk]
    have hself : dlookup gg.1 G = some gg.2 := dlookup_self_of_nodup hndG hgg
    rw [hk, hg] at hself
    have hge : gg.2 = g := by
      injection hself with h
      exact h.symm
    dsimp only
    obtain ⟨hnd, hsub⟩ := hOcc gg hgg
    have hfresh : dlookup pos gg.2.assigned_positions = none := by
      rw [hge]
      exact availablePositions_lookup_none hpos
    have hnotmem : pos ∉ gg.2.assigned_positions.map (·.1) :=
      (dlookup_eq_none _ _).mp hfresh
    constructor
    · rw [dinsert_of_fresh comp hfresh, List.map_append]
      simp only [List.nodup_append, List.map_cons, List.map_nil]
      refine ⟨hnd, List.nodup_singleton _, ?_⟩
      intro a ha hb
      rcases List.mem_singleton.mp hb with rfl
      exact hnotmem ha
    · intro p hp
      rw [dinsert_of_fresh comp hfresh, List.map_append] at hp
      rcases List.mem_append.mp hp with hp' | hp'
      · exact hsub p hp'
      · rcases List.mem_singleton.mp (by simpa using hp') with rfl
        rw [hge]
        exact availablePositions_subset hpos
  · rw [if_neg hk]
    exact hOcc gg hgg

theorem sync_update {A : List ((String × String) × String)} {G : List (String × Group)}
    (hsync : Sync A G) {gid pos comp : String} {g : Group}
    (hg : dlookup gid G = some g) :
    Sync (dinsert (gid, pos) comp A) (assignSeat gid pos comp G) := by
  intro gid' pos'
  by_cases hq : (gid', pos') = ((gid, pos) : String × String)
  · obtain ⟨h1, h2⟩ := Prod.mk.injEq gid' pos' gid pos ▸ hq
    subst h1
    subst h2
    rw [dlookup_dinsert_self, dlookup_assignSeat_self, hg, Option.map_some']
    simp only [Option.some_bind]
    rw [dlookup_dinsert_self]
  · rw [dlookup_dinsert_of_ne comp A hq]
    by_cases hgid : gid' = gid
    · subst hgid
      have hpos' : pos' ≠ pos := by
        intro hh
        exact hq (by rw [hh])
      rw [dlookup_assignSeat_self, hg, Option.map_some']
      simp only [Option.some_bind]
      rw [dlookup_dinsert_of_ne comp _ hpos']
      rw [hsync gid' pos', hg]
      simp only [Option.some_bind]
    · rw [dlookup_assignSeat_ne pos comp G hgid]
      exact hsync gid' pos'

/-- Committing a competitor to an open seat of an existing group preserves
the placement invariant, appends the competitor, decrements the open seat
count by one and keeps every previously assigned seat intact. -/
theorem commit_inv (groups0 : List (String × Group))
    {A : List ((String × String) × String)} {G : List (String × Group)}
    {gid pos : String} (comp : String) {g : Group}
    (hnd0 : (groups0.map (·.1)).Nodup)
    (hpos0 : ∀ gg ∈ groups0, gg.2.positions.Nodup)
    (hinv : PlacementInv groups0 A G)
    (hg : dlookup gid G = some g) (hpmem : pos ∈ availablePositions g) :
    PlacementInv groups0 (dinsert (gid, pos) comp A) (assignSeat gid pos comp G) ∧
    (dinsert (gid, pos) comp A).map (·.2) = A.map (·.2) ++ [comp] ∧
    openCount (assignSeat gid pos comp G) + 1 = openCount G ∧
    dlookup (gid, pos) (dinsert (gid, pos) comp A) = some comp ∧
    (∀ q c, dlookup q A = some c → dlookup q (dinsert (gid, pos) comp A) = some c) := by
  obtain ⟨hshape, hsync, hocc, hnodA, hlen⟩ := hinv
  have hndG : (G.map (·.1)).Nodup := by
    rw [hshape.keys]
    exact hnd0
  have hposng : ∀ gg ∈ G, gg.2.positions.Nodup :=
    hshape.positions_prop _ hpos0
  have hfreshg : dlookup pos g.assigned_positions = none :=
    availablePositions_lookup_none hpmem
  have hfreshA : dlookup (gid, pos) A = none := by
    rw [hsync gid pos, hg]
    simp only [Option.some_bind]
    exact hfreshg
  have hkeyout : ((gid, pos) : String × String) ∉ A.map (·.1) :=
    (dlookup_eq_none _ _).mp hfreshA
  have hA' : dinsert (gid, pos) comp A = A ++ [((gid, pos), comp)] :=
    dinsert_of_fresh comp hfreshA
  have hshape' : GroupsShape groups0 (assignSeat gid pos comp G) :=
    assignSeat_shape gid pos comp hshape
  have hocc' : GroupsOcc (assignSeat gid pos comp G) :=
    groupsOcc_assignSeat hndG hocc hg hpmem
  have hposng' : ∀ gg ∈ assignSeat gid pos comp G, gg.2.positions.Nodup :=
    hshape'.positions_prop _ hpos0
  have hoccCnt : occCount (assignSeat gid pos comp G) = occCount G + 1 :=
    occCount_assignSeat hndG hg hfreshg
  refine ⟨⟨hshape', sync_update hsync hg, hocc', ?_, ?_⟩, ?_, ?_, ?_, ?_⟩
  · rw [hA', List.map_append]
    simp only [List.nodup_append, List.map_cons, List.map_nil]
    refine ⟨hnodA, List.nodup_singleton _, ?_⟩
    intro a ha hb
    rcases List.mem_singleton.mp hb with rfl
    exact hkeyout ha
  · rw [hA', List.length_append, hoccCnt, hlen]
    rfl
  · rw [hA', List.map_append]
    rfl
  · have h1 := openCount_add_occCount G hocc hposng
    have h2 := openCount_add_occCount (assignSeat gid pos comp G) hocc' hposng'
    have h3 : totalPos (assignSeat gid pos comp G) = totalPos G := by
      rw [hshape'.totalPos_eq, hshape.totalPos_eq]
    omega
  · exact dlookup_dinsert_self _ _ _
  · intro q c hqc
    have hqne : q ≠ ((gid, pos) : String × String) := by
      intro hh
      rw [hh, hfreshA] at hqc
      cases hqc
    rw [dlookup_dinsert_of_ne comp A hqne]
    exact hqc

/-- One successful placement preserves the placement invariant, appends the
competitor to the assignment, consumes exactly one open seat and keeps all
previously assigned seats intact. -/
theorem placeOne_inv (groups0 : List (String × Group)) (country comp : String)
    (st : PState)
    (hnd0 : (groups0.map (·.1)).Nodup)
    (hpos0 : ∀ gg ∈ groups0, gg.2.positions.Nodup)
    (hinv : PlacementInv groups0 st.assignment st.groups)
    (hopen : openCount st.groups > 0) :
    PlacementInv groups0 (placeOne country comp st).assignment
      (placeOne country comp st).groups ∧
    (placeOne country comp st).assignment.map (·.2) = st.assignment.map (·.2) ++ [comp] ∧
    openCount (placeOne country comp st).groups + 1 = openCount st.groups ∧
    (∀ q c, dlookup q st.assignment = some c →
      dlookup q (placeOne country comp st).assignment = some c) := by
  have hndG : (st.groups.map (·.1)).Nodup := by
    rw [hinv.1.keys]
    exact hnd0
  obtain ⟨gid, pos, g, rng2, hg, hpmem, heq⟩ := placeOne_step country comp st hndG hopen
  obtain ⟨c1, c2, c3, _, c5⟩ := commit_inv groups0 comp hnd0 hpos0 hinv hg hpmem
  rw [heq]
  exact ⟨c1, c2, c3, c5⟩

/-- Placing a list of competitors one by one (the inner loop of one
country) under sufficient open seats. -/
theorem placeList_inv (groups0 : List (String × Group)) (country : String)
    (hnd0 : (groups0.map (·.1)).Nodup)
    (hpos0 : ∀ gg ∈ groups0, gg.2.positions.Nodup) :
    ∀ (cs : List String) (st : PState),
      PlacementInv groups0 st.assignment st.groups →
      cs.length ≤ openCount st.groups →
      PlacementInv groups0 (cs.foldl (fun s c => placeOne country c s) st).assignment
        (cs.foldl (fun s c => placeOne country c s) st).groups ∧
      (cs.foldl (fun s c => placeOne country c s) st).assignment.map (·.2) =
        st.assignment.map (·.2) ++ cs ∧
      openCount (cs.foldl (fun s c => placeOne country c s) st).groups + cs.length =
        openCount st.groups ∧
      (∀ q c, dlookup q st.assignment = some c →
        dlookup q (cs.foldl (fun s c => placeOne country c s) st).assignment = some c) := by
  intro cs
  induction cs with
  | nil =>
    intro st hinv _
    exact ⟨hinv, by simp, by simp, fun q c h => h⟩
  | cons c cs ih =>
    intro st hinv hlen
    simp only [List.length_cons] at hlen
    have hopen : openCount st.groups > 0 := by omega
    obtain ⟨hinv1, hval1, hopen1, hpres1⟩ :=
      placeOne_inv groups0 country c st hnd0 hpos0 hinv hopen
    obtain ⟨hinv2, hval2, hopen2, hpres2⟩ :=
      ih (placeOne country c st) hinv1 (by omega)
    rw [List.foldl_cons]
    refine ⟨hinv2, ?_, ?_, ?_⟩
    · rw [hval2, hval1, List.append_assoc]
      rfl
    · simp only [List.length_cons]
      omega
    · intro q cc h
      exact hpres2 q cc (hpres1 q cc h)

/-- Placing one country (shuffle then inner loop). -/
theorem placeCountry_inv (groups0 : List (String × Group))
    (hnd0 : (groups0.map (·.1)).Nodup)
    (hpos0 : ∀ gg ∈ groups0, gg.2.positions.Nodup)
    (ce : String × List String) (st : PState)
    (hinv : PlacementInv groups0 st.assignment st.groups)
    (hlen : ce.2.length ≤ openCount st.groups) :
    PlacementInv groups0 (placeCountry st ce).assignment (placeCountry st ce).groups ∧
    (placeCountry st ce).assignment.map (·.2) ~ st.assignment.map (·.2) ++ ce.2 ∧
    openCount (placeCountry st ce).groups + ce.2.length = openCount st.groups ∧
    (∀ q c, dlookup q st.assignment = some c →
      dlookup q (placeCountry st ce).assignment = some c) := by
  unfold placeCountry
  have hperm : (rshuffle ce.2 st.rng).1 ~ ce.2 := rshuffle_perm ce.2 st.rng
  have hlen' : (rshuffle ce.2 st.rng).1.length ≤
      openCount ({ st with rng := (rshuffle ce.2 st.rng).2 } : PState).groups := by
    rw [hperm.length_eq]
    exact hlen
  obtain ⟨h1, h2, h3, h4⟩ := placeList_inv groups0 ce.1 hnd0 hpos0
    (rshuffle ce.2 st.rng).1 { st with rng := (rshuffle ce.2 st.rng).2 } hinv hlen'
  refine ⟨h1, ?_, ?_, h4⟩
  · rw [h2]
    exact (Perm.refl _).append hperm
  · rw [hperm.length_eq] at h3
    exact h3

/-- Placing all countries in order. -/
theorem placeCountries_inv (groups0 : List (String × Group))
    (hnd0 : (groups0.map (·.1)).Nodup)
    (hpos0 : ∀ gg ∈ groups0, gg.2.positions.Nodup) :
    ∀ (ccs : List (String × List String)) (st : PState),
      PlacementInv groups0 st.assignment st.groups →
      (ccs.map (fun ce => ce.2.length)).sum ≤ openCount st.groups →
      PlacementInv groups0 (ccs.foldl placeCountry st).assignment
        (ccs.foldl placeCountry st).groups ∧
      (ccs.foldl placeCountry st).assignment.map (·.2) ~
        st.assignment.map (·.2) ++ (ccs.map (·.2)).flatten ∧
      openCount (ccs.foldl placeCountry st).groups +
        (ccs.map (fun ce => ce.2.length)).sum = openCount st.groups ∧
      (∀ q c, dlookup q st.assignment = some c →
        dlookup q (ccs.foldl placeCountry st).assignment = some c) := by
  intro ccs
  induction ccs with
  | nil =>
    intro st hinv _
    exact ⟨hinv, by simp, by simp, fun q c h => h⟩
  | cons ce ccs ih =>
    intro st hinv hlen
    simp only [List.map_cons, List.sum_cons] at hlen
    obtain ⟨h1, h2, h3, h4⟩ := placeCountry_inv groups0 hnd0 hpos0 ce st hinv (by omega)
    obtain ⟨g1, g2, g3, g4⟩ := ih (placeCountry st ce) h1 (by omega)
    rw [List.foldl_cons]
    refine ⟨g1, ?_, ?_, ?_⟩
    · calc (ccs.foldl placeCountry (placeCountry st ce)).assignment.map (·.2)
          ~ (placeCountry st ce).assignment.map (·.2) ++ (ccs.map (·.2)).flatten := g2
        _ ~ (st.assignment.map (·.2) ++ ce.2) ++ (ccs.map (·.2)).flatten :=
          h2.append_right _
        _ = st.assignment.map (·.2) ++ (((ce :: ccs).map (·.2)).flatten) := by
          rw [List.append_assoc]
          rfl
    · simp only [List.map_cons, List.sum_cons]
      omega
    · intro q c h
      exact g4 q c (h4 q c h)

/-- Committing the fixed pins (lines 130-135): each pin lands on its own
seat, the invariant is established, and earlier pins are never moved. -/
theorem placeFixed_inv (groups0 : List (String × Group))
    (hnd0 : (groups0.map (·.1)).Nodup)
    (hpos0 : ∀ gg ∈ groups0, gg.2.positions.Nodup) :
    ∀ (fixed : List (String × (String × String)))
      (A : List ((String × String) × String)) (G : List (String × Group)),
      PlacementInv groups0 A G →
      ((fixed.map (·.2)).Nodup) →
      (∀ e ∈ fixed, dlookup e.2 A = none) →
      (∀ e ∈ fixed, ∃ g0, dlookup e.2.1 groups0 = some g0 ∧ e.2.2 ∈ g0.positions) →
      PlacementInv groups0 (placeFixed fixed A G).1 (placeFixed fixed A G).2 ∧
      (placeFixed fixed A G).1.map (·.2) = A.map (·.2) ++ fixed.map (·.1) ∧
      openCount (placeFixed fixed A G).2 + fixed.length = openCount G ∧
      (∀ e ∈ fixed, dlookup e.2 (placeFixed fixed A G).1 = some e.1) ∧
      (∀ q c, dlookup q A = some c → dlookup q (placeFixed fixed A G).1 = some c) := by
  intro fixed
  induction fixed with
  | nil =>
    intro A G hinv _ _ _
    exact ⟨hinv, by simp [placeFixed], by simp [placeFixed],
      fun e he => absurd he (List.not_mem_nil e), fun q c h => h⟩
  | cons e fixed ih =>
    intro A G hinv hnd hfree hvalid
    simp only [List.map_cons, List.nodup_cons] at hnd
    -- the pin's group exists in G with the same positions
    obtain ⟨g0, hg0, hp0⟩ := hvalid e (List.mem_cons_self _ _)
    have hlookG : ∃ g, dlookup e.2.1 G = some g ∧ g.positions = g0.positions := by
      have := hinv.1.dlookup_positions e.2.1
      rw [hg0] at this
      cases hG : dlookup e.2.1 G with
      | none => rw [hG] at this; cases this
      | some g =>
        rw [hG] at this
        refine ⟨g, rfl, ?_⟩
        injection this
    obtain ⟨g, hg, hgpos⟩ := hlookG
    -- the pinned seat is open in its group
    have hfreeg : dlookup e.2.2 g.assigned_positions = none := by
      have hs := hinv.2.1 e.2.1 e.2.2
      rw [hg] at hs
      simp only [Option.some_bind] at hs
      rw [← hs]
      exact hfree e (List.mem_cons_self _ _)
    have hpmem : e.2.2 ∈ availablePositions g := by
      unfold availablePositions
      refine List.mem_filter.mpr ⟨?_, ?_⟩
      · rw [hgpos]
        exact hp0
      · simp only [decide_eq_true_eq]
        unfold dmem
        rw [hfreeg]
        simp
    obtain ⟨c1, c2, c3, c4, c5⟩ := commit_inv groups0 e.1 hnd0 hpos0 hinv hg hpmem
    -- step the fold
    have hstep : placeFixed (e :: fixed) A G =
        placeFixed fixed (dinsert (e.2.1, e.2.2) e.1 A) (assignSeat e.2.1 e.2.2 e.1 G) := by
      unfold placeFixed
      rw [List.foldl_cons]
    have hfree' : ∀ e' ∈ fixed, dlookup e'.2 (dinsert (e.2.1, e.2.2) e.1 A) = none := by
      intro e' he'
      have hne : e'.2 ≠ ((e.2.1, e.2.2) : String × String) := by
        intro hh
        have hh2 : e'.2 = e.2 := hh
        exact hnd.1 (hh2 ▸ List.mem_map_of_mem (·.2) he')
      rw [dlookup_dinsert_of_ne _ _ hne]
      exact hfree e' (List.mem_cons_of_mem _ he')
    obtain ⟨i1, i2, i3, i4, i5⟩ := ih (dinsert (e.2.1, e.2.2) e.1 A)
      (assignSeat e.2.1 e.2.2 e.1 G) c1 hnd.2 hfree'
      (fun e' he' => hvalid e' (List.mem_cons_of_mem _ he'))
    rw [hstep]
    refine ⟨i1, ?_, ?_, ?_, ?_⟩
    · rw [i2, c2, List.append_assoc]
      rfl
    · simp only [List.length_cons]
      omega
    · intro e' he'
      rcases List.mem_cons.mp he' with rfl | he''
      · have : dlookup e'.2 (dinsert (e'.2.1, e'.2.2) e'.1 A) = some e'.1 := c4
        exact i5 e'.2 e'.1 this
      · exact i4 e' he''
    · intro q c h
      exact i5 q c (c5 q c h)

/-! ### Partition of the remaining competitors by country -/

theorem dlookup_mem {K V : Type} [DecidableEq K] {k : K} {v : V} {l : List (K × V)}
    (h : dlookup k l = some v) : (k, v) ∈ l := by
  induction l with
  | nil => cases h
  | cons e rest ih =>
    rw [dlookup] at h
    by_cases he : e.1 = k
    · rw [if_pos he] at h
      injection h with h
      have hkv : (k, v) = e := by
        cases e
        simp_all
      rw [hkv]
      exact List.mem_cons_self _ _
    · rw [if_neg he] at h
      exact List.mem_cons_of_mem _ (ih h)

theorem dappend_flatten_perm {K V : Type} [DecidableEq K] (k : K) (v : V)
    (m : List (K × List V)) :
    ((dappend k v m).map (·.2)).flatten ~ (m.map (·.2)).flatten ++ [v] := by
  induction m with
  | nil => simp [dappend]
  | cons b m ih =>
    by_cases hb : b.1 = k
    · simp only [dappend, if_pos hb, List.map_cons, List.flatten_cons]
      calc (b.2 ++ [v]) ++ (m.map (·.2)).flatten
          = b.2 ++ ([v] ++ (m.map (·.2)).flatten) := by rw [List.append_assoc]
        _ ~ b.2 ++ ((m.map (·.2)).flatten ++ [v]) :=
            (List.perm_append_comm).append_left b.2
        _ = (b.2 ++ (m.map (·.2)).flatten) ++ [v] := by rw [List.append_assoc]
    · simp only [dappend, if_neg hb, List.map_cons, List.flatten_cons]
      calc b.2 ++ ((dappend k v m).map (·.2)).flatten
          ~ b.2 ++ ((m.map (·.2)).flatten ++ [v]) := ih.append_left b.2
        _ = (b.2 ++ (m.map (·.2)).flatten) ++ [v] := by rw [List.append_assoc]

theorem dgroupBy_flatten_perm {K V : Type} [DecidableEq K] (l : List (K × V)) :
    ((dgroupBy l).map (·.2)).flatten ~ l.map (·.2) := by
  induction l using List.reverseRecOn with
  | nil => rfl
  | append_singleton l e ih =>
    have hsnoc : dgroupBy (l ++ [e]) = dappend e.1 e.2 (dgroupBy l) := by
      simp [dgroupBy, List.foldl_append]
    rw [hsnoc, List.map_append]
    calc ((dappend e.1 e.2 (dgroupBy l)).map (·.2)).flatten
        ~ ((dgroupBy l).map (·.2)).flatten ++ [e.2] := dappend_flatten_perm e.1 e.2 _
      _ ~ l.map (·.2) ++ [e.2] := ih.append_right _
      _ = l.map (·.2) ++ [e].map (·.2) := rfl

theorem buildCountryGroups_eq (competitors : List (String × Competitor))
    (remaining : List String) :
    buildCountryGroups competitors remaining =
      dgroupBy (remaining.map (fun c => (countryOf competitors c, c))) := by
  simp [buildCountryGroups, dgroupBy, List.foldl_map]

theorem buildCountryGroups_flatten_perm (competitors : List (String × Competitor))
    (remaining : List String) :
    ((buildCountryGroups competitors remaining).map (·.2)).flatten ~ remaining := by
  rw [buildCountryGroups_eq]
  calc ((dgroupBy (remaining.map (fun c => (countryOf competitors c, c)))).map (·.2)).flatten
      ~ (remaining.map (fun c => (countryOf competitors c, c))).map (·.2) :=
        dgroupBy_flatten_perm _
    _ = remaining := by
        rw [List.map_map]
        exact List.map_congr_left (fun c _ => rfl) |>.trans (List.map_id remaining)

theorem sortCountries_perm (cgs : List (String × List String)) :
    sortCountries cgs ~ cgs :=
  List.perm_insertionSort _ cgs

theorem remaining_partition_perm (competitors : List (String × Competitor))
    (fixed_positions : List (String × (String × String)))
    (hndc : (competitors.map (·.1)).Nodup)
    (hndf : (fixed_positions.map (·.1)).Nodup)
    (hsub : ∀ e ∈ fixed_positions, dmem e.1 competitors = true) :
    fixed_positions.map (·.1) ++
      (dkeys competitors).filter (fun n => ¬ (dmem n fixed_positions)) ~
      competitors.map (·.1) := by
  have hsplit := List.filter_append_perm
    (fun n => dmem n fixed_positions) (dkeys competitors)
  have hfirst : (dkeys competitors).filter (fun n => dmem n fixed_positions) ~
      fixed_positions.map (·.1) := by
    refine (perm_ext_iff_of_nodup (hndc.filter _) hndf).mpr ?_
    intro n
    rw [List.mem_filter]
    constructor
    · rintro ⟨_, hm⟩
      exact (dlookup_isSome _ _).mp hm
    · intro hm
      refine ⟨?_, (dlookup_isSome _ _).mpr hm⟩
      rcases List.mem_map.mp hm with ⟨e, he, rfl⟩
      exact (dlookup_isSome _ _).mp (hsub e he)
  have hpred : (dkeys competitors).filter (fun n => ¬ (dmem n fixed_positions)) =
      (dkeys competitors).filter (fun n => !(dmem n fixed_positions)) := by
    refine List.filter_congr ?_
    intro n _
    cases dmem n fixed_positions <;> rfl
  rw [hpred]
  calc fixed_positions.map (·.1) ++
        (dkeys competitors).filter (fun n => !(dmem n fixed_positions))
      ~ (dkeys competitors).filter (fun n => dmem n fixed_positions) ++
        (dkeys competitors).filter (fun n => !(dmem n fixed_positions)) :=
        hfirst.symm.append_right _
    _ ~ dkeys competitors := hsplit
    _ = competitors.map (·.1) := rfl

/-! ### End-to-end correctness of the placement pass -/

theorem sum_eq_zero_of_forall {l : List Nat} (h : ∀ x ∈ l, x = 0) : l.sum = 0 := by
  induction l with
  | nil => rfl
  | cons a l ih =>
    rw [List.sum_cons, h a (List.mem_cons_self _ _),
      ih (fun x hx => h x (List.mem_cons_of_mem _ hx))]

theorem sum_eq_zero_mem {l : List Nat} (h : l.sum = 0) {x : Nat} (hx : x ∈ l) : x = 0 := by
  induction l with
  | nil => cases hx
  | cons a l ih =>
    rw [List.sum_cons] at h
    rcases List.mem_cons.mp hx with rfl | hx'
    · omega
    · exact ih (by omega) hx'

theorem systematic_assignments_eq (competitors : List (String × Competitor))
    (groups : List (String × Group)) (fixed : List (String × (String × String)))
    (seed : Option Int) (rng : List Nat) :
    (systematic_country_assignment competitors groups fixed seed rng).1.assignments =
      ((sysState competitors groups fixed rng).groups.foldl
        (shuffleGroupSeats (fixedPositionSet fixed))
        ((sysState competitors groups fixed rng).assignment,
         (sysState competitors groups fixed rng).rng)).1 := rfl

/-- Master theorem about one placement pass on valid, well-formed inputs:
unique seat keys, every seat of every group assigned, every competitor
placed exactly once (as a multiset equality of id lists), every assignment
entry a real seat of a real group, and every pin honoured. -/
theorem systematic_master (competitors : List (String × Competitor))
    (groups : List (String × Group)) (fixed : List (String × (String × String)))
    (seed : Option Int) (rng : List Nat)
    (hwf : WellFormedInputs competitors groups fixed)
    (hv : ValidSpec competitors groups fixed) :
    (((systematic_country_assignment competitors groups fixed seed rng).1.assignments.map
      (·.1)).Nodup) ∧
    (∀ gg ∈ groups, ∀ pos ∈ gg.2.positions,
      (dlookup (gg.1, pos)
        (systematic_country_assignment competitors groups fixed seed rng).1.assignments).isSome
        = true) ∧
    ((systematic_country_assignment competitors groups fixed seed rng).1.assignments.map (·.2) ~
      competitors.map (·.1)) ∧
    (∀ e ∈ (systematic_country_assignment competitors groups fixed seed rng).1.assignments,
      ∃ g0, dlookup e.1.1 groups = some g0 ∧ e.1.2 ∈ g0.positions) ∧
    (∀ e ∈ fixed,
      dlookup e.2
        (systematic_country_assignment competitors groups fixed seed rng).1.assignments
        = some e.1) := by
  obtain ⟨hndc, hndg, hndf, hgrp⟩ := hwf
  obtain ⟨hcnt, hpins, hndseats⟩ := hv
  have hpos0 : ∀ gg ∈ groups, gg.2.positions.Nodup := by
    intro gg hgg
    rw [(hgrp gg hgg).2.1]
    exact positionsFor_nodup _
  have hOcc0 : GroupsOcc groups := by
    intro gg hgg
    rw [(hgrp gg hgg).1]
    exact ⟨List.nodup_nil, fun p hp => absurd hp (List.not_mem_nil p)⟩
  have hsync0 : Sync [] groups := by
    intro gid pos
    cases hG : dlookup gid groups with
    | none => rfl
    | some g =>
      have hmem := dlookup_mem hG
      simp only [Option.some_bind]
      rw [(hgrp (gid, g) hmem).1]
      rfl
  have hocc0 : occCount groups = 0 := by
    unfold occCount
    refine sum_eq_zero_of_forall ?_
    intro x hx
    rcases List.mem_map.mp hx with ⟨gg, hgg, rfl⟩
    rw [(hgrp gg hgg).1]
    rfl
  have hinv0 : PlacementInv groups [] groups :=
    ⟨GroupsShape.refl groups, hsync0, hOcc0, List.nodup_nil, by rw [hocc0]; rfl⟩
  have htotc : totalPos groups = competitors.length := by
    unfold totalPos
    rw [hcnt]
    congr 1
    refine List.map_congr_left ?_
    intro gg hgg
    rw [(hgrp gg hgg).2.1]
    exact positionsFor_length (hgrp gg hgg).2.2
  have hopen0 : openCount groups = competitors.length := by
    have h := openCount_add_occCount groups hOcc0 hpos0
    omega
  obtain ⟨pf1, pf2, pf3, pf4, pf5⟩ :=
    placeFixed_inv groups hndg hpos0 fixed [] groups hinv0 hndseats
      (fun e _ => rfl) (fun e he => (hpins e he).2)
  have pf2' : (placeFixed fixed [] groups).1.map (·.2) = fixed.map (·.1) := by
    rw [pf2]
    rfl
  have hpart : fixed.map (·.1) ++ remainingOf competitors fixed ~ competitors.map (·.1) :=
    remaining_partition_perm competitors fixed hndc hndf (fun e he => (hpins e he).1)
  have hflat : ((sysCountries competitors fixed).map (·.2)).flatten ~
      remainingOf competitors fixed := by
    refine Perm.trans ?_ (buildCountryGroups_flatten_perm competitors
      (remainingOf competitors fixed))
    exact ((sortCountries_perm (buildCountryGroups competitors
      (remainingOf competitors fixed))).map (·.2)).flatten
  have hsum : ((sysCountries competitors fixed).map (fun ce => ce.2.length)).sum =
      (remainingOf competitors fixed).length := by
    have h1 : (sysCountries competitors fixed).map (fun ce => ce.2.length) =
        ((sysCountries competitors fixed).map (·.2)).map List.length := by
      rw [List.map_map]
      exact List.map_congr_left (fun ce _ => rfl)
    rw [h1, ← List.length_flatten]
    exact hflat.length_eq
  have hlen1 : fixed.length + (remainingOf competitors fixed).length =
      competitors.length := by
    have h := hpart.length_eq
    rw [List.length_append, List.length_map, List.length_map] at h
    exact h
  have hInitA : (sysInit competitors groups fixed rng).assignment =
      (placeFixed fixed [] groups).1 := rfl
  have hInitG : (sysInit competitors groups fixed rng).groups =
      (placeFixed fixed [] groups).2 := rfl
  have hle : ((sysCountries competitors fixed).map (fun ce => ce.2.length)).sum ≤
      openCount (sysInit competitors groups fixed rng).groups := by
    rw [hInitG]
    omega
  obtain ⟨q1, q2, q3, q4⟩ := placeCountries_inv groups hndg hpos0
    (sysCountries competitors fixed) (sysInit competitors groups fixed rng) pf1 hle
  have hstate : (sysCountries competitors fixed).foldl placeCountry
      (sysInit competitors groups fixed rng) = sysState competitors groups fixed rng := rfl
  rw [hstate] at q1 q2 q3 q4
  rw [hInitA] at q2 q4
  rw [hInitG] at q3
  have hopenF : openCount (sysState competitors groups fixed rng).groups = 0 := by
    omega
  have hvals : (sysState competitors groups fixed rng).assignment.map (·.2) ~
      competitors.map (·.1) := by
    calc (sysState competitors groups fixed rng).assignment.map (·.2)
        ~ (placeFixed fixed [] groups).1.map (·.2) ++
          ((sysCountries competitors fixed).map (·.2)).flatten := q2
      _ = fixed.map (·.1) ++ ((sysCountries competitors fixed).map (·.2)).flatten := by
          rw [pf2']
      _ ~ fixed.map (·.1) ++ remainingOf competitors fixed := hflat.append_left _
      _ ~ competitors.map (·.1) := hpart
  have hpinsS : ∀ e ∈ fixed,
      dlookup e.2 (sysState competitors groups fixed rng).assignment = some e.1 := by
    intro e he
    exact q4 e.2 e.1 (pf4 e he)
  have havail : ∀ gg ∈ (sysState competitors groups fixed rng).groups,
      availablePositions gg.2 = [] := by
    intro gg hgg
    have hx : (availablePositions gg.2).length ∈
        (sysState competitors groups fixed rng).groups.map
          (fun gg => (availablePositions gg.2).length) :=
      List.mem_map_of_mem _ hgg
    have h0 : (availablePositions gg.2).length = 0 := sum_eq_zero_mem hopenF hx
    exact List.length_eq_zero.mp h0
  have hcoverS : ∀ gg ∈ groups, ∀ pos ∈ gg.2.positions,
      (dlookup (gg.1, pos) (sysState competitors groups fixed rng).assignment).isSome
        = true := by
    intro gg hgg pos hpos
    have hlook0 : dlookup gg.1 groups = some gg.2 := dlookup_self_of_nodup hndg hgg
    have hshape := q1.1.dlookup_positions gg.1
    rw [hlook0] at hshape
    cases hG : dlookup gg.1 (sysState competitors groups fixed rng).groups with
    | none => rw [hG] at hshape; cases hshape
    | some g =>
      rw [hG] at hshape
      simp only [Option.map_some'] at hshape
      injection hshape with hshape
      have hav : availablePositions g = [] := havail (gg.1, g) (dlookup_mem hG)
      have hocc : dmem pos g.assigned_positions = true := by
        by_contra hd
        have hmem : pos ∈ availablePositions g := by
          refine List.mem_filter.mpr ⟨?_, ?_⟩
          · rw [hshape]; exact hpos
          · simp only [decide_eq_true_eq]
            exact hd
        rw [hav] at hmem
        exact absurd hmem (List.not_mem_nil _)
      have hs := q1.2.1 gg.1 pos
      rw [hG] at hs
      simp only [Option.some_bind] at hs
      rw [hs]
      exact hocc
  have hseatS : ∀ e ∈ (sysState competitors groups fixed rng).assignment,
      ∃ g0, dlookup e.1.1 groups = some g0 ∧ e.1.2 ∈ g0.positions := by
    intro e he
    have hlk : dlookup e.1 (sysState competitors groups fixed rng).assignment = some e.2 :=
      dlookup_self_of_nodup q1.2.2.2.1 he
    have hs : dlookup (e.1.1, e.1.2) (sysState competitors groups fixed rng).assignment
        = some e.2 := hlk
    have hsync := q1.2.1 e.1.1 e.1.2
    rw [hsync] at hs
    cases hG : dlookup e.1.1 (sysState competitors groups fixed rng).groups with
    | none => rw [hG] at hs; cases hs
    | some g =>
      rw [hG] at hs
      simp only [Option.some_bind] at hs
      have hmm : e.1.2 ∈ g.assigned_positions.map (·.1) :=
        (dlookup_isSome _ _).mp (by rw [hs]; rfl)
      have hposmem : e.1.2 ∈ g.positions :=
        (q1.2.2.1 (e.1.1, g) (dlookup_mem hG)).2 e.1.2 hmm
      have hshape := q1.1.dlookup_positions e.1.1
      rw [hG] at hshape
      cases hG0 : dlookup e.1.1 groups with
      | none => rw [hG0] at hshape; cases hshape
      | some g0 =>
        rw [hG0] at hshape
        simp only [Option.map_some'] at hshape
        injection hshape with hshape
        exact ⟨g0, rfl, hshape ▸ hposmem⟩
  obtain ⟨s1, s2, s3, s4⟩ := shuffleSeats_foldl_spec (fixedPositionSet fixed)
    (sysState competitors groups fixed rng).groups
    (sysState competitors groups fixed rng).assignment
    (sysState competitors groups fixed rng).rng
    q1.2.2.2.1
    (q1.1.positions_prop (fun l => l.Nodup) hpos0)
  rw [← systematic_assignments_eq competitors groups fixed seed rng] at s1 s3 s4
  refine ⟨?_, ?_, ?_, ?_, ?_⟩
  · rw [s1]
    exact q1.2.2.2.1
  · intro gg hgg pos hpos
    have h := hcoverS gg hgg pos hpos
    rw [dlookup_isSome] at h ⊢
    rw [s1]
    exact h
  · exact s4.trans hvals
  · intro e he
    have hk : e.1 ∈ (systematic_country_assignment competitors groups fixed
        seed rng).1.assignments.map (·.1) :=
      List.mem_map_of_mem _ he
    rw [s1] at hk
    have hsome := (dlookup_isSome _ _).mpr hk
    cases hl : dlookup e.1 (sysState competitors groups fixed rng).assignment with
    | none => rw [hl] at hsome; cases hsome
    | some c => exact hseatS (e.1, c) (dlookup_mem hl)
  · intro e he
    have hq := s3 e.2 (List.mem_map_of_mem _ he)
    rw [hq]
    exact hpinsS e he

/-! ### The optimizer returns one of its attempts -/

theorem dlookup_freshGroups (k : String) (groups : List (String × Group)) :
    dlookup k (freshGroups groups) =
      (dlookup k groups).map (fun g => Group.make g.id g.capacity g.label) := by
  induction groups with
  | nil => rfl
  | cons gg rest ih =>
    by_cases h : gg.1 = k
    · simp only [freshGroups, List.map_cons, dlookup, if_pos h, Option.map_some']
    · simp only [freshGroups, List.map_cons, dlookup, if_neg h]
      exact ih

theorem freshGroups_wf (competitors : List (String × Competitor))
    (groups : List (String × Group)) (fixed : List (String × (String × String)))
    (hwf : WellFormedInputs competitors groups fixed) :
    WellFormedInputs competitors (freshGroups groups) fixed := by
  obtain ⟨h1, h2, h3, h4⟩ := hwf
  refine ⟨h1, ?_, h3, ?_⟩
  · have hkeys : (freshGroups groups).map (·.1) = groups.map (·.1) := by
      unfold freshGroups
      rw [List.map_map]
      exact List.map_congr_left (fun g _ => rfl)
    rw [hkeys]
    exact h2
  · intro gg hgg
    unfold freshGroups at hgg
    rcases List.mem_map.mp hgg with ⟨g0, hg0, rfl⟩
    exact ⟨rfl, rfl, (h4 g0 hg0).2.2⟩

theorem freshGroups_valid (competitors : List (String × Competitor))
    (groups : List (String × Group)) (fixed : List (String × (String × String)))
    (hwf : WellFormedInputs competitors groups fixed)
    (hv : ValidSpec competitors groups fixed) :
    ValidSpec competitors (freshGroups groups) fixed := by
  obtain ⟨hcnt, hpins, hnd⟩ := hv
  refine ⟨?_, ?_, hnd⟩
  · rw [hcnt]
    congr 1
    unfold freshGroups
    rw [List.map_map]
    exact List.map_congr_left (fun g _ => rfl)
  · intro e he
    refine ⟨(hpins e he).1, ?_⟩
    obtain ⟨g0, hg0, hpos⟩ := (hpins e he).2
    refine ⟨Group.make g0.id g0.capacity g0.label, ?_, ?_⟩
    · rw [dlookup_freshGroups, hg0]
      rfl
    · show e.2.2 ∈ positionsFor g0.capacity
      rw [← (hwf.2.2.2 (e.2.1, g0) (dlookup_mem hg0)).2.1]
      exact hpos

/-- Whatever `optLoop` returns (other than its incoming best) is the result
of one of the systematic attempts it ran. -/
theorem optLoop_result_mem (competitors : List (String × Competitor))
    (groups : List (String × Group)) (fixed : List (String × (String × String)))
    (seed : Option Int) (streams : Nat → List Nat) (expired : Nat → Bool) :
    ∀ (fuel attempt : Nat) (best : Option Assignment) (a : Assignment),
      optLoop competitors groups fixed seed streams expired fuel attempt best = some a →
      best = some a ∨ ∃ i, a = optAttempt competitors groups fixed seed streams i := by
  intro fuel
  induction fuel with
  | zero =>
    intro attempt best a h
    simp only [optLoop] at h
    exact Or.inl h
  | succ fuel ih =>
    intro attempt best a h
    by_cases hexp : expired attempt = true
    · have hloop : optLoop competitors groups fixed seed streams expired
          (fuel + 1) attempt best = best := by
        simp [optLoop, hexp]
      rw [hloop] at h
      exact Or.inl h
    · have hloop : optLoop competitors groups fixed seed streams expired
          (fuel + 1) attempt best =
          (if betterThan
              (optAttempt competitors groups fixed seed streams attempt).collision_count
              best then
            if (optAttempt competitors groups fixed seed streams attempt).collision_count
                = 0 then
              some (optAttempt competitors groups fixed seed streams attempt)
            else optLoop competitors groups fixed seed streams expired fuel (attempt + 1)
              (some (optAttempt competitors groups fixed seed streams attempt))
          else optLoop competitors groups fixed seed streams expired fuel
            (attempt + 1) best) := by
        simp [optLoop, hexp]
      rw [hloop] at h
      by_cases hbet : betterThan
          (optAttempt competitors groups fixed seed streams attempt).collision_count
          best = true
      · rw [if_pos hbet] at h
        by_cases hzero :
            (optAttempt competitors groups fixed seed streams attempt).collision_count = 0
        · rw [if_pos hzero] at h
          injection h with h
          exact Or.inr ⟨attempt, h.symm⟩
        · rw [if_neg hzero] at h
          rcases ih (attempt + 1)
            (some (optAttempt competitors groups fixed seed streams attempt)) a h with
            hb | hi
          · injection hb with hb
            exact Or.inr ⟨attempt, hb.symm⟩
          · exact Or.inr hi
      · rw [if_neg hbet] at h
        rcases ih (attempt + 1) best a h with hb | hi
        · exact Or.inl hb
        · exact Or.inr hi

/-! ### Claims C1 and C2 -/

/-- C1: for every set of inputs on which validation succeeds and for every
seed, in the Assignment returned by the placement pass
(`systematic_country_assignment`) and in any Assignment returned by the
optimizer, every fixed pin's competitor occupies exactly the pinned
(groupId, seat): no placement or reshuffle step relocates or overwrites a
pinned seat. -/
theorem claim_pins_inviolable (competitors : List (String × Competitor))
    (groups : List (String × Group)) (fixed : List (String × (String × String)))
    (seed : Option Int) (rng : List Nat) (streams : Nat → List Nat)
    (expired : Nat → Bool)
    (hwf : WellFormedInputs competitors groups fixed)
    (hv : (validate_inputs competitors groups fixed).1 = true) :
    (∀ e ∈ fixed,
      dlookup e.2
        (systematic_country_assignment competitors groups fixed seed rng).1.assignments
        = some e.1) ∧
    (∀ a, optimized_systematic_assignment competitors groups fixed seed streams expired
        = some a →
      ∀ e ∈ fixed, dlookup e.2 a.assignments = some e.1) := by
  have hvs := (validate_inputs_true_iff competitors groups fixed).mp hv
  constructor
  · exact (systematic_master competitors groups fixed seed rng hwf hvs).2.2.2.2
  · intro a ha e he
    rcases optLoop_result_mem competitors groups fixed seed streams expired
      100 0 none a ha with hb | ⟨i, rfl⟩
    · cases hb
    · show dlookup e.2
        (systematic_country_assignment competitors (freshGroups groups) fixed
          (seed.map (fun s => s + (i : Int))) (streams i)).1.assignments = some e.1
      exact (systematic_master competitors (freshGroups groups) fixed
        (seed.map (fun s => s + (i : Int))) (streams i)
        (freshGroups_wf competitors groups fixed hwf)
        (freshGroups_valid competitors groups fixed hwf hvs)).2.2.2.2 e he

/-- Witness for C1: six competitors, two groups of three, one pin, the empty
random stream. -/
theorem claim_pins_inviolable_witness :
    WellFormedInputs exCompetitorsSix exGroupsTwo exPinOne ∧
    (validate_inputs exCompetitorsSix exGroupsTwo exPinOne).1 = true ∧
    (∀ e ∈ exPinOne,
      dlookup e.2
        (systematic_country_assignment exCompetitorsSix exGroupsTwo exPinOne
          none []).1.assignments = some e.1) :=
  ⟨by unfold WellFormedInputs; decide, by decide,
    (claim_pins_inviolable exCompetitorsSix exGroupsTwo exPinOne none []
      (fun _ => []) (fun _ => false) (by unfold WellFormedInputs; decide) (by decide)).1⟩

/-- C2: for every set of inputs accepted by `validate_inputs` and every
seed, the Assignment produced by `systematic_country_assignment` maps every
seat of every group to exactly one competitor (every seat is assigned and no
seat key repeats, every assigned seat is a real seat of a real group) and
every input competitor appears at exactly one seat (the assignment's values
are a permutation of the competitor ids). -/
theorem claim_seat_coverage (competitors : List (String × Competitor))
    (groups : List (String × Group)) (fixed : List (String × (String × String)))
    (seed : Option Int) (rng : List Nat)
    (hwf : WellFormedInputs competitors groups fixed)
    (hv : (validate_inputs competitors groups fixed).1 = true) :
    (((systematic_country_assignment competitors groups fixed seed rng).1.assignments.map
      (·.1)).Nodup) ∧
    (∀ gg ∈ groups, ∀ pos ∈ gg.2.positions, ∃ comp,
      dlookup (gg.1, pos)
        (systematic_country_assignment competitors groups fixed seed rng).1.assignments
        = some comp) ∧
    ((systematic_country_assignment competitors groups fixed seed rng).1.assignments.map
      (·.2) ~ competitors.map (·.1)) ∧
    (∀ e ∈ (systematic_country_assignment competitors groups fixed seed rng).1.assignments,
      ∃ g0, dlookup e.1.1 groups = some g0 ∧ e.1.2 ∈ g0.positions) := by
  obtain ⟨h1, h2, h3, h4, _⟩ := systematic_master competitors groups fixed seed rng hwf
    ((validate_inputs_true_iff competitors groups fixed).mp hv)
  exact ⟨h1, fun gg hgg pos hpos => Option.isSome_iff_exists.mp (h2 gg hgg pos hpos),
    h3, h4⟩

/-- Witness for C2 at the same concrete inputs. -/
theorem claim_seat_coverage_witness :
    WellFormedInputs exCompetitorsSix exGroupsTwo exPinOne ∧
    (validate_inputs exCompetitorsSix exGroupsTwo exPinOne).1 = true ∧
    (((systematic_country_assignment exCompetitorsSix exGroupsTwo exPinOne
      none []).1.assignments.map (·.2)) ~ exCompetitorsSix.map (·.1)) :=
  ⟨by unfold WellFormedInputs; decide, by decide,
    (claim_seat_coverage exCompetitorsSix exGroupsTwo exPinOne none []
      (by unfold WellFormedInputs; decide) (by decide)).2.2.1⟩

end GroupsAssigner
